import Mathlib

/-!
Verification development for the obsidian canvas link-node plugin.

The development shallowly embeds:
* `parseTransformToXY` (src/transformParser, duplicated in src/ModelSwitcher.ts
  lines 156-203 and src/unnamed/part_000 lines 13-59): the CSS transform
  parser, including the exact regex semantics of the three recognizers.
* the geometry matcher and the polling reconciliation pass
  (`CanvasPolling.doPollingWork`, src/unnamed/part_002 lines 193-331).
* the Backspace interception guard (`AddCanvasLinkNodePlugin.handleBackspace`,
  src/src/AddCanvasLinkNodePlugin.ts lines 54-119).

JS numbers are modelled as `Option ℚ` where `none` stands for NaN; the inputs
exercised by the plugin are decimal literals, so rationals are exact.
-/

/-- JS regex `\s` on the ASCII range (space, tab, LF, VT, FF, CR). -/
def isWsChar (c : Char) : Bool :=
  c = ' ' || c = '\t' || c = '\n' || c = '\r' || c = Char.ofNat 11 || c = Char.ofNat 12

/-- The character class `[\-\d.]` used by the matrix regexes. -/
def isNumChar (c : Char) : Bool :=
  c = '-' || c.isDigit || c = '.'

/-- JS regex `\w`: letters, digits, underscore. -/
def isWordChar (c : Char) : Bool :=
  c.isAlpha || c.isDigit || c = '_'

/-- Numeric value of a decimal digit character. -/
def digitVal (c : Char) : Nat := c.toNat - 48

/-- Value of a list of decimal digit characters, most significant first. -/
def natOfDigits (ds : List Char) : Nat := ds.foldl (fun a c => 10 * a + digitVal c) 0

/-- Apply a decimal exponent part (the tail after `e`/`E`) to a rational; a
malformed exponent part (no digits) is ignored, as JS does.  All arithmetic is
on the numerator/denominator so that the result reduces by `rfl`. -/
def applyExp (q : ℚ) (r3 : List Char) : ℚ :=
  let r4 : List Char := if r3.head? = some '-' ∨ r3.head? = some '+' then r3.tail else r3
  let eds := r4.takeWhile Char.isDigit
  if eds = [] then q
  else if r3.head? = some '-' then mkRat q.num (q.den * 10 ^ natOfDigits eds)
  else mkRat (q.num * (10 : Int) ^ natOfDigits eds) q.den

/-- JS `parseFloat` on finite decimal inputs: skips leading whitespace, reads an
optional sign, an integer part, an optional fraction and an optional exponent,
and ignores any trailing garbage.  `none` models NaN (no digits found).
The value `sign * (intPart + fracPart / 10^k) * 10^exp` is assembled with
`mkRat` so that it evaluates definitionally.  The `Infinity` literals are
outside the scope of this development. -/
def jsParseFloat (cs0 : List Char) : Option ℚ :=
  let cs := cs0.dropWhile isWsChar
  let sgn : Int := if cs.head? = some '-' then -1 else 1
  let cs1 : List Char := if cs.head? = some '-' ∨ cs.head? = some '+' then cs.tail else cs
  let ints := cs1.takeWhile Char.isDigit
  let r1 := cs1.dropWhile Char.isDigit
  let fracs : List Char := if r1.head? = some '.' then r1.tail.takeWhile Char.isDigit else []
  let r2 : List Char := if r1.head? = some '.' then r1.tail.dropWhile Char.isDigit else r1
  if ints = [] ∧ fracs = [] then none
  else
    let k := fracs.length
    let base : ℚ :=
      mkRat (sgn * ((natOfDigits ints * 10 ^ k + natOfDigits fracs : Nat) : Int)) (10 ^ k)
    if r2.head? = some 'e' ∨ r2.head? = some 'E' then some (applyExp base r2.tail)
    else some base

/-- Consume an exact literal from the front of the input. -/
def eatLit : List Char → List Char → Option (List Char)
  | [], cs => some cs
  | _ :: _, [] => none
  | l :: ls, c :: cs => if c = l then eatLit ls cs else none

/-- One capture `[\-\d.]+`: the maximal nonempty run of number-class characters. -/
def numCapture (cs : List Char) : Option (List Char × List Char) :=
  let run := cs.takeWhile isNumChar
  match run with
  | [] => none
  | _ :: _ => some (run, cs.dropWhile isNumChar)

/-- `n` captures `[\-\d.]+` separated by `,\s*`, exactly as in the matrix
regexes (whitespace allowed after each comma, none before). -/
def capsAux : Nat → List Char → Option (List (List Char) × List Char)
  | 0, cs => some ([], cs)
  | n + 1, cs =>
    match numCapture cs with
    | none => none
    | some (run, rest) =>
      match n with
      | 0 => some ([run], rest)
      | m + 1 =>
        match rest with
        | ',' :: rest2 =>
          match capsAux (m + 1) (rest2.dropWhile isWsChar) with
          | some (runs, rest3) => some (run :: runs, rest3)
          | none => none
        | _ => none

/-- The anchored regex `^matrix\(\s*([\-\d.]+),\s*([\-\d.]+),\s*([\-\d.]+),\s*([\-\d.]+),\s*([\-\d.]+),\s*([\-\d.]+)\)`;
returns the six captured number runs.  Trailing input after `)` is allowed
(the regex has no end anchor). -/
def matrixExec (cs : List Char) : Option (List (List Char)) :=
  match eatLit "matrix(".data cs with
  | none => none
  | some r0 =>
    match capsAux 6 (r0.dropWhile isWsChar) with
    | some (runs, rest) =>
      match rest with
      | ')' :: _ => some runs
      | _ => none
    | none => none

/-- The anchored regex `^matrix3d\(\s*([\-\d.]+(?:,\s*[\-\d.]+){14})\)`: the
single capture holds exactly 15 comma-separated number runs (the `{14}`
repetition), which the source then splits on `,`, trims and parses; the
runs returned here are exactly those split-and-trimmed pieces. -/
def matrix3dExec (cs : List Char) : Option (List (List Char)) :=
  match eatLit "matrix3d(".data cs with
  | none => none
  | some r0 =>
    match capsAux 15 (r0.dropWhile isWsChar) with
    | some (runs, rest) =>
      match rest with
      | ')' :: _ => some runs
      | _ => none
    | none => none

/-- One attempted match of `(\w+)\(([^)]+)\)` at the head of the input:
a nonempty word run, `(`, a nonempty run of non-`)` characters, `)`. -/
def tryCall (cs : List Char) : Option (List Char × List Char × List Char) :=
  let nm := cs.takeWhile isWordChar
  match nm with
  | [] => none
  | _ :: _ =>
    match cs.dropWhile isWordChar with
    | '(' :: r1 =>
      let ar := r1.takeWhile (fun c => c ≠ ')')
      match ar with
      | [] => none
      | _ :: _ =>
        match r1.dropWhile (fun c => c ≠ ')') with
        | ')' :: r2 => some (nm, ar, r2)
        | _ => none
    | _ => none

/-- Global scan of `(\w+)\(([^)]+)\)` (leftmost matches, resuming after each
match), fuelled; each step consumes at least one character, so fuel equal to
the input length is always sufficient. -/
def scanFuel : Nat → List Char → List (List Char × List Char)
  | 0, _ => []
  | _ + 1, [] => []
  | f + 1, c :: cs =>
    match tryCall (c :: cs) with
    | some (nm, ar, rest) => (nm, ar) :: scanFuel f rest
    | none => scanFuel f cs

/-- All matches of `(\w+)\(([^)]+)\)` in the input, in order. -/
def scanCalls (cs : List Char) : List (List Char × List Char) :=
  scanFuel cs.length cs

/-- JS `String.prototype.split(',')`. -/
def splitComma : List Char → List (List Char)
  | [] => [[]]
  | c :: rest =>
    if c = ',' then [] :: splitComma rest
    else
      match splitComma rest with
      | h :: t => (c :: h) :: t
      | [] => [[c]]

/-- JS `String.prototype.trim` (ASCII whitespace). -/
def trimChars (l : List Char) : List Char :=
  ((l.dropWhile isWsChar).reverse.dropWhile isWsChar).reverse

/-- The `while ((funcMatch = allFunctionsRegex.exec(...)))` loop body: for each
`translate` call, split its raw arguments on `,`, trim, and overwrite `(x, y)`
(second component 0 when only one argument); other functions are ignored.
The last `translate` wins. -/
def foldCalls : Option ℚ × Option ℚ → List (List Char × List Char) → Option ℚ × Option ℚ
  | xy, [] => xy
  | (x, y), (fn, raw) :: rest =>
    let xy2 : Option ℚ × Option ℚ :=
      if fn = "translate".data then
        let parts := (splitComma raw).map trimChars
        match parts with
        | [] => (x, y)
        | [a] => (jsParseFloat a, some 0)
        | a :: b :: _ => (jsParseFloat a, jsParseFloat b)
      else (x, y)
    foldCalls xy2 rest

/-- `parseTransformToXY` (src/ModelSwitcher.ts lines 156-203): empty or
`"none"` input yields `(0, 0)`; otherwise try the `matrix` regex (components
are captures 5 and 6), then the `matrix3d` regex (components are the split
parts at indexes 12 and 13), then scan all chained function calls for
`translate`. -/
def parseTransformToXY (s : String) : Option ℚ × Option ℚ :=
  if s = "" ∨ s = "none" then (some 0, some 0)
  else
    let cs := s.data
    match matrixExec cs with
    | some caps => ((caps.get? 4).bind jsParseFloat, (caps.get? 5).bind jsParseFloat)
    | none =>
      match matrix3dExec cs with
      | some runs =>
        let parts := runs.map (fun r => jsParseFloat (trimChars r))
        ((parts.get? 12).join, (parts.get? 13).join)
      | none => foldCalls (some 0, some 0) (scanCalls cs)

example : parseTransformToXY "" = (some 0, some 0) := by rfl
example : parseTransformToXY "none" = (some 0, some 0) := by rfl
example : parseTransformToXY "matrix(1, 0, 0, 1, -42.5, 17)" = (some (mkRat (-85) 2), some (mkRat 17 1)) := by rfl
example : parseTransformToXY "translate(10px, -5px) scale(2)" = (some (mkRat 10 1), some (mkRat (-5) 1)) := by rfl
example : parseTransformToXY "translate(7px)" = (some (mkRat 7 1), some 0) := by rfl
example : parseTransformToXY "matrix3d(1, 0, 0, 0, 0, 1, 0, 0, 0, 0, 1, 0, 200, -1000, 0, 1)" = (some 0, some 0) := by rfl
example : parseTransformToXY "matrix3d(1, 0, 0, 0, 0, 1, 0, 0, 0, 0, 1, 0, 200, -1000, 0)" = (some (mkRat 200 1), some (mkRat (-1000) 1)) := by rfl

/-! ## Canvas data model (src/CanvasTypes.ts) and the DOM as seen by the plugin -/

/-- A record in the `.canvas` JSON (`CanvasNode` in src/CanvasTypes.ts):
`id`, discriminator `type` (`"link"` is the relevant kind), optional `url`,
geometry, the `lastUrl` cache written by the polling pass, and the open
extension fields (`[key: string]: unknown`) modelled as an opaque association
list. -/
structure CanvasNode where
  id : String
  type : String
  url : Option String
  x : ℚ
  y : ℚ
  width : ℚ
  height : ℚ
  lastUrl : Option String
  extra : List (String × String)
deriving DecidableEq

/-- The `.canvas` JSON document (`CanvasData`): nodes plus opaque edges. -/
structure CanvasData where
  nodes : List CanvasNode
  edges : List String
deriving DecidableEq

/-- A rendered `.canvas-node` element: its computed geometry (transform
translation and width/height, already parsed to numbers) and its `<webview>`
child's `src`, when a `<webview>` is present. -/
structure DomElem where
  x : ℚ
  y : ℚ
  width : ℚ
  height : ℚ
  webview : Option String
deriving DecidableEq

/-- `a - b` on ℚ assembled with `mkRat` so that it evaluates definitionally. -/
def qSub (a b : ℚ) : ℚ := mkRat (a.num * b.den - b.num * a.den) (a.den * b.den)

/-- `Math.abs`, by sign test on the numerator. -/
def ratAbs (q : ℚ) : ℚ := if q.num < 0 then mkRat (-q.num) q.den else q

/-- `q < 0.5`, via the executable `Rat.blt`. -/
def qLtHalf (q : ℚ) : Bool := Rat.blt q (mkRat 1 2)

/-- The geometry test of `findAllCanvasNodesInDom` (src/unnamed/part_002 lines
317-322): all four absolute differences strictly below the 0.5 tolerance.
The same four-conjunct test appears in every matcher in the repository. -/
def geomMatches (n : CanvasNode) (e : DomElem) : Bool :=
  qLtHalf (ratAbs (qSub n.x e.x)) && qLtHalf (ratAbs (qSub n.y e.y)) &&
    qLtHalf (ratAbs (qSub n.width e.width)) && qLtHalf (ratAbs (qSub n.height e.height))

/-- Indices of matching elements, in DOM order (helper for
`findAllCanvasNodesInDom`). -/
def findAllAux (n : CanvasNode) : List DomElem → Nat → List Nat
  | [], _ => []
  | e :: es, i =>
    if geomMatches n e then i :: findAllAux n es (i + 1) else findAllAux n es (i + 1)

/-- `CanvasPolling.findAllCanvasNodesInDom` (src/unnamed/part_002 lines
303-330): all DOM `.canvas-node` elements whose geometry matches the record,
as indices into the DOM list (the source returns the element references;
indices model the same references into the mutable DOM). -/
def findAllCanvasNodesInDom (n : CanvasNode) (dom : List DomElem) : List Nat :=
  findAllAux n dom 0

/-- The `src` of the `<webview>` inside DOM element `i`, if both exist. -/
def srcAt (dom : List DomElem) (i : Nat) : Option String :=
  dom[i]?.bind (fun e => e.webview)

/-- Matching element indices that actually carry a `<webview>`. -/
def wvMatches (n : CanvasNode) (dom : List DomElem) : List Nat :=
  (findAllCanvasNodesInDom n dom).filter (fun i => (srcAt dom i).isSome)

/-- JS `String.prototype.trim` lifted to `String`. -/
def jsTrim (s : String) : String := ⟨trimChars s.data⟩

/-! ## The reconciliation pass (`CanvasPolling.doPollingWork`,
src/unnamed/part_002 lines 193-271).

The per-element body is `stepElem`; `processElems` is the
`for (const domElement of matchingEls)` loop; `processNodes` is the
`for (const node of linkNodes)` loop (non-`link` records are skipped by the
`filter`, i.e. passed through unchanged).  The in-memory set `hasInitialized`
is modelled as the list `hasInit` (membership only, monotone growth).  Besides
the mutated state the functions return the `changed` flag, the list of record
ids whose stored address was pushed into a webview (`webview.src = node.lastUrl`
events) and the list of `node.lastUrl = updatedSrc` assignments. -/

/-- Outcome of processing one record against some elements: the (possibly
updated) record, the DOM and first-seen set threaded through, the `changed`
flag contribution, the push events and the `lastUrl` assignments. -/
structure StepRes where
  node : CanvasNode
  dom : List DomElem
  ini : List String
  changed : Bool
  pushes : List String
  assigns : List (String × String)
deriving DecidableEq

/-- One iteration of the matching-elements loop for record `n` at DOM index
`i`: skip when no webview; otherwise do the one-time init (mark the id; if the
stored `lastUrl` is nonempty, push it into the webview), then read the current
`src` back and assign it to `lastUrl` when different. -/
def stepElem (n : CanvasNode) (dom : List DomElem) (ini : List String) (i : Nat) : StepRes :=
  match dom[i]? with
  | none => ⟨n, dom, ini, false, [], []⟩
  | some el =>
    match el.webview with
    | none => ⟨n, dom, ini, false, [], []⟩
    | some _ =>
      let step1 : List DomElem × List String × List String :=
        if n.id ∈ ini then (dom, ini, [])
        else
          let ini2 := n.id :: ini
          match n.lastUrl with
          | some u =>
            if u ≠ "" ∧ jsTrim u ≠ "" then (dom.set i { el with webview := some u }, ini2, [n.id])
            else (dom, ini2, [])
          | none => (dom, ini2, [])
      let updatedSrc := (srcAt step1.1 i).getD ""
      if n.lastUrl = some updatedSrc then ⟨n, step1.1, step1.2.1, false, step1.2.2, []⟩
      else
        ⟨{ n with lastUrl := some updatedSrc }, step1.1, step1.2.1, true, step1.2.2,
          [(n.id, updatedSrc)]⟩

/-- The `for (const domElement of matchingEls)` loop. -/
def processElems (n : CanvasNode) (dom : List DomElem) (ini : List String) :
    List Nat → StepRes
  | [] => ⟨n, dom, ini, false, [], []⟩
  | i :: is =>
    let r1 := stepElem n dom ini i
    let r2 := processElems r1.node r1.dom r1.ini is
    ⟨r2.node, r2.dom, r2.ini, r1.changed || r2.changed, r1.pushes ++ r2.pushes,
      r1.assigns ++ r2.assigns⟩

/-- Processing of one `link` record: iterate over all geometry-matching DOM
elements (an empty match list is the `continue` case). -/
def processLinkNode (n : CanvasNode) (dom : List DomElem) (ini : List String) : StepRes :=
  processElems n dom ini (findAllCanvasNodesInDom n dom)

/-- Outcome of the whole loop over the document's records. -/
structure NodesRes where
  nodes : List CanvasNode
  dom : List DomElem
  ini : List String
  changed : Bool
  pushes : List String
  assigns : List (String × String)
deriving DecidableEq

/-- The loop over the document's records, in document order; records whose
`type` is not `"link"` are not in `linkNodes` and pass through unchanged. -/
def processNodes : List CanvasNode → List DomElem → List String → NodesRes
  | [], dom, ini => ⟨[], dom, ini, false, [], []⟩
  | n :: ns, dom, ini =>
    if n.type = "link" then
      let r1 := processLinkNode n dom ini
      let r2 := processNodes ns r1.dom r1.ini
      ⟨r1.node :: r2.nodes, r2.dom, r2.ini, r1.changed || r2.changed, r1.pushes ++ r2.pushes,
        r1.assigns ++ r2.assigns⟩
    else
      let r2 := processNodes ns dom ini
      ⟨n :: r2.nodes, r2.dom, r2.ini, r2.changed, r2.pushes, r2.assigns⟩

/-- The state a polling pass acts on: the active file (`none` when no `.canvas`
file is active; `some none` when reading/JSON-parsing its content fails;
`some (some data)` when it parses), the rendered DOM, and the in-memory
first-seen id set. -/
structure PollState where
  active : Option (Option CanvasData)
  dom : List DomElem
  hasInit : List String
deriving DecidableEq

/-- Result of one pass: the successor state, whether `vault.modify` was called
(`wrote`), the webview pushes and the `lastUrl` assignments performed. -/
structure PollResult where
  state : PollState
  wrote : Bool
  pushes : List String
  assigns : List (String × String)
deriving DecidableEq

/-- `CanvasPolling.doPollingWork`: skip when there is no active `.canvas` file
or its content fails to parse; otherwise process every `link` record against
the DOM and persist the whole document exactly when the `changed` flag was
set. -/
def doPollingWork (s : PollState) : PollResult :=
  match s.active with
  | none => ⟨s, false, [], []⟩
  | some none => ⟨s, false, [], []⟩
  | some (some data) =>
    let r := processNodes data.nodes s.dom s.hasInit
    if r.changed then
      ⟨⟨some (some ⟨r.nodes, data.edges⟩), r.dom, r.ini⟩, true, r.pushes, r.assigns⟩
    else
      ⟨⟨s.active, r.dom, r.ini⟩, false, r.pushes, r.assigns⟩

/-- A whole process lifetime: alternate polling passes with arbitrary external
interference (user navigation, document edits, elements appearing or
disappearing) — interference can replace the DOM and the document but has no
access to the in-memory first-seen set.  Returns every webview push performed,
in order. -/
def lifetimePushes (s : PollState) :
    List (List DomElem → Option (Option CanvasData) → List DomElem × Option (Option CanvasData)) →
      List String
  | [] => []
  | f :: fs =>
    let r := doPollingWork s
    let ext := f r.state.dom r.state.active
    r.pushes ++ lifetimePushes ⟨ext.2, ext.1, r.state.hasInit⟩ fs

/-! ## Backspace interception (`AddCanvasLinkNodePlugin.handleBackspace`,
src/src/AddCanvasLinkNodePlugin.ts lines 54-119). -/

/-- A node of the live canvas selection; its effective URL is
`node?.unknownData?.url || node?.url`. -/
structure SelNode where
  unknownDataUrl : Option String
  url : Option String
  x : ℚ
  y : ℚ
  width : ℚ
  height : ℚ
deriving DecidableEq

/-- The fields of the keyboard event the handler inspects. -/
structure KeyEvt where
  isTrusted : Bool
  key : String
deriving DecidableEq

/-- `startsWithList pre l`: `l` begins with `pre`. -/
def startsWithList : List Char → List Char → Bool
  | [], _ => true
  | _ :: _, [] => false
  | p :: ps, c :: cs => c = p && startsWithList ps cs

/-- JS `String.prototype.includes`: the needle occurs as a contiguous
substring. -/
def containsSub (needle : List Char) : List Char → Bool
  | [] => startsWithList needle []
  | c :: cs => startsWithList needle (c :: cs) || containsSub needle cs

/-- `node?.unknownData?.url || node?.url` (the first operand wins unless it is
absent or the empty string). -/
def effUrl (n : SelNode) : Option String :=
  match n.unknownDataUrl with
  | some s => if s ≠ "" then some s else n.url
  | none => n.url

/-- `url && url.includes('chatgpt.com')`. -/
def hasChatGpt (n : SelNode) : Bool :=
  match effUrl n with
  | some u => u ≠ "" && containsSub "chatgpt.com".data u.data
  | none => false

/-- What `handleBackspace` does: either fall through (default deletion
proceeds, no `preventDefault`) or suppress the event and run the compensating
sequence on the matching selected nodes. -/
inductive BackspaceAction where
  | defaultAction
  | blockAndCompensate (targets : List SelNode)
deriving DecidableEq

/-- `handleBackspace`: return early (default behaviour) when the event is
synthetic, is not Backspace, there is no canvas view with a selection, or the
selection is empty or has no node whose URL contains `chatgpt.com`; otherwise
suppress the event and run the compensating sequence on every matching
selected node.  `canvas = none` models a missing leaf/view/canvas (or a null
selection). -/
def handleBackspace (evt : KeyEvt) (canvas : Option (List SelNode)) : BackspaceAction :=
  if evt.isTrusted = false then .defaultAction
  else if evt.key ≠ "Backspace" then .defaultAction
  else
    match canvas with
    | none => .defaultAction
    | some sel =>
      if sel.length = 0 then .defaultAction
      else if sel.any hasChatGpt then .blockAndCompensate (sel.filter hasChatGpt)
      else .defaultAction

/-! ## Bridging lemmas: the executable `mkRat`/`Rat.blt` arithmetic agrees
with the ordered-field operations on ℚ. -/

theorem qSub_eq (a b : ℚ) : qSub a b = a - b := by
  have ha : ((a.den : ℚ)) ≠ 0 := by exact_mod_cast a.den_nz
  have hb : ((b.den : ℚ)) ≠ 0 := by exact_mod_cast b.den_nz
  rw [qSub, Rat.mkRat_eq_divInt, Rat.divInt_eq_div]
  conv_rhs => rw [← Rat.num_div_den a, ← Rat.num_div_den b]
  rw [div_sub_div _ _ ha hb]
  push_cast
  ring_nf

theorem ratAbs_eq (q : ℚ) : ratAbs q = |q| := by
  rw [ratAbs]
  by_cases h : q.num < 0
  · have hq : q < 0 := by
      by_contra hq
      exact absurd (Rat.num_nonneg.mpr (not_lt.mp hq)) (not_le.mpr h)
    rw [if_pos h, Rat.mkRat_eq_divInt, ← Rat.neg_def, abs_of_neg hq]
  · have hq : 0 ≤ q := Rat.num_nonneg.mp (not_lt.mp h)
    rw [if_neg h, abs_of_nonneg hq]

theorem mkRat_one_two : (mkRat 1 2 : ℚ) = 1 / 2 := by
  rw [Rat.mkRat_eq_divInt, Rat.divInt_eq_div]
  norm_num

theorem qLtHalf_iff (q : ℚ) : qLtHalf q = true ↔ q < 1 / 2 := by
  rw [← mkRat_one_two]
  exact Iff.rfl

theorem geomMatches_iff (n : CanvasNode) (e : DomElem) :
    geomMatches n e = true ↔
      |n.x - e.x| < 1 / 2 ∧ |n.y - e.y| < 1 / 2 ∧
        |n.width - e.width| < 1 / 2 ∧ |n.height - e.height| < 1 / 2 := by
  simp [geomMatches, Bool.and_eq_true, qLtHalf_iff, ratAbs_eq, qSub_eq, and_assoc]

/-! ## Claim theorems (first group) -/

/-- C4: a visual element's geometry matches a record's geometry if and only if
all four absolute differences are strictly below the tolerance 0.5; exact
tolerance in any component is therefore not a match, strictly below in all four
is. -/
theorem c4_matching_tolerance_strict (n : CanvasNode) (e : DomElem) :
    geomMatches n e = true ↔
      |n.x - e.x| < 1 / 2 ∧ |n.y - e.y| < 1 / 2 ∧
        |n.width - e.width| < 1 / 2 ∧ |n.height - e.height| < 1 / 2 :=
  geomMatches_iff n e

/-- C5: a trusted Backspace with no selected record whose stored address
contains `chatgpt.com` (or an empty/absent selection, a non-Backspace key, or
a synthetic event) is not suppressed: the handler falls through and the
default deletion proceeds. -/
theorem c5_no_marker_means_default (evt : KeyEvt) (canvas : Option (List SelNode))
    (h : evt.isTrusted = false ∨ evt.key ≠ "Backspace" ∨ canvas = none ∨
      ∃ sel, canvas = some sel ∧ ∀ n ∈ sel, hasChatGpt n = false) :
    handleBackspace evt canvas = .defaultAction := by
  unfold handleBackspace
  by_cases ht : evt.isTrusted = false
  · simp [ht]
  · rw [if_neg ht]
    by_cases hk : evt.key ≠ "Backspace"
    · rw [if_pos hk]
    · rw [if_neg hk]
      rcases h with h | h | h | ⟨sel, hsel, hall⟩
      · exact absurd h ht
      · exact absurd h hk
      · rw [h]
      · subst hsel
        have hany : sel.any hasChatGpt = false := by
          rw [List.any_eq_false]
          intro n hn
          simp [hall n hn]
        by_cases hlen : sel.length = 0
        · simp [hlen]
        · simp [hlen, hany]

/-- C5 witness: a genuine Backspace over a selection holding one record whose
URL does not contain the marker is not suppressed. -/
theorem c5_witness :
    handleBackspace ⟨true, "Backspace"⟩
        (some [⟨none, some "https://example.com", 0, 0, 0, 0⟩]) = .defaultAction :=
  c5_no_marker_means_default _ _
    (Or.inr (Or.inr (Or.inr ⟨_, rfl, by decide⟩)))

/-- C7: if the document's content fails to parse, the pass aborts immediately:
the whole state (document, DOM, first-seen set) is unchanged, nothing is
written, no record is touched. -/
theorem c7_parse_failure_aborts (s : PollState) (h : s.active = some none) :
    doPollingWork s = ⟨s, false, [], []⟩ := by
  obtain ⟨a, dom, ini⟩ := s
  cases h
  rfl

/-- C7 witness: a concrete state whose document is unreadable. -/
theorem c7_witness :
    doPollingWork ⟨some none, [⟨0, 0, 100, 100, some "u"⟩], []⟩ =
      ⟨⟨some none, [⟨0, 0, 100, 100, some "u"⟩], []⟩, false, [], []⟩ :=
  c7_parse_failure_aborts _ rfl

/-- C1: the code's `matrix3d` regex repeats the number group `{14}` times, so
it accepts exactly 15 numbers and never a real 16-argument `matrix3d` string;
a 16-argument input therefore falls through to the generic function scan and
yields `(0, 0)` instead of arguments 12 and 13, while a (non-CSS) 15-argument
input does yield its entries at indexes 12 and 13 — the off-by-one. -/
theorem c1_matrix3d_off_by_one :
    parseTransformToXY "matrix3d(1, 0, 0, 0, 0, 1, 0, 0, 0, 0, 1, 0, 200, -1000, 0, 1)"
        = (some 0, some 0) ∧
      parseTransformToXY "matrix3d(1, 0, 0, 0, 0, 1, 0, 0, 0, 0, 1, 0, 200, -1000, 0)"
        = (some 200, some (-1000)) :=
  ⟨rfl, rfl⟩

/-! ## Counterexample states for C2 and C6: one link record whose geometry is
matched by two DOM elements whose webviews show different addresses. -/

def c2Node : CanvasNode := ⟨"n", "link", none, 0, 0, 100, 100, some "u2", []⟩

def c2State : PollState :=
  ⟨some (some ⟨[c2Node], []⟩),
    [⟨0, 0, 100, 100, some "u1"⟩, ⟨0, 0, 100, 100, some "u2"⟩], ["n"]⟩

/-- C2 counterexample: after one pass the state is bit-for-bit identical (so
the second pass runs with no intervening visual or document change), yet the
second pass writes the document again: `lastUrl` oscillates `u2 → u1 → u2`
inside each pass, setting the `changed` flag every time. -/
theorem c2_counterexample :
    (doPollingWork c2State).state = c2State ∧
      (doPollingWork (doPollingWork c2State).state).wrote = true :=
  ⟨rfl, rfl⟩

def c6Node : CanvasNode := ⟨"m", "link", none, 5, 6, 70, 80, some "v2", []⟩

def c6State : PollState :=
  ⟨some (some ⟨[c6Node], []⟩),
    [⟨5, 6, 70, 80, some "v1"⟩, ⟨5, 6, 70, 80, some "v2"⟩], ["m"]⟩

/-- C6 counterexample: after one pass, the record still geometrically matches
DOM element 0, whose live webview address is `v1`, but the stored address ends
the pass as `v2` (the last matching element wins), so "every matching live
view's address" is not what is stored. -/
theorem c6_counterexample :
    geomMatches c6Node ⟨5, 6, 70, 80, some "v1"⟩ = true ∧
      (doPollingWork c6State).state.dom[0]? = some ⟨5, 6, 70, 80, some "v1"⟩ ∧
      (doPollingWork c6State).state.active = some (some ⟨[c6Node], []⟩) ∧
      c6Node.lastUrl = some "v2" ∧ (some "v2" : Option String) ≠ some "v1" :=
  ⟨rfl, rfl, rfl, rfl, by decide⟩

/-! ## Invariants of the reconciliation pass -/

/-- Geometry and webview presence of each DOM element: the part of the DOM
that a pass never changes (pushes only replace the `src` string of an
existing webview). -/
def domShape (dom : List DomElem) : List (ℚ × ℚ × ℚ × ℚ × Bool) :=
  dom.map (fun e => (e.x, e.y, e.width, e.height, e.webview.isSome))

theorem listSetSame {α : Type} (l : List α) (i : Nat) (a : α) (h : l[i]? = some a) :
    l.set i a = l := by
  induction l generalizing i with
  | nil => simp at h
  | cons b bs ih =>
    cases i with
    | zero => simp at h; simp [h]
    | succ j => simp at h; simp [List.set, ih j h]

theorem domShape_set (dom : List DomElem) (i : Nat) (el : DomElem) (u : String)
    (hget : dom[i]? = some el) (hwv : el.webview.isSome = true) :
    domShape (dom.set i { el with webview := some u }) = domShape dom := by
  have hmap : domShape (dom.set i { el with webview := some u }) =
      (domShape dom).set i (el.x, el.y, el.width, el.height, true) := by
    simp [domShape, List.map_set]
  rw [hmap]
  apply listSetSame
  rw [domShape, List.getElem?_map, hget]
  simp [hwv]

theorem stepElem_skip (n : CanvasNode) (dom : List DomElem) (ini : List String) (i : Nat)
    (h : srcAt dom i = none) : stepElem n dom ini i = ⟨n, dom, ini, false, [], []⟩ := by
  rw [srcAt] at h
  cases hget : dom[i]? with
  | none => simp [stepElem, hget]
  | some el =>
    rw [hget] at h
    cases hwv : el.webview with
    | none => simp [stepElem, hget, hwv]
    | some s => simp [hwv] at h

theorem stepElem_node (n : CanvasNode) (dom : List DomElem) (ini : List String) (i : Nat) :
    (stepElem n dom ini i).node =
      { n with lastUrl := (stepElem n dom ini i).node.lastUrl } := by
  obtain ⟨nid, nty, nurl, nx, ny, nw, nh, nlu, nex⟩ := n
  cases hget : dom[i]? with
  | none => simp [stepElem, hget]
  | some el =>
    cases hwv : el.webview with
    | none => simp [stepElem, hget, hwv]
    | some s =>
      simp only [stepElem, hget, hwv]
      repeat' split
      all_goals rfl

theorem stepElem_shape (n : CanvasNode) (dom : List DomElem) (ini : List String) (i : Nat) :
    domShape (stepElem n dom ini i).dom = domShape dom := by
  cases hget : dom[i]? with
  | none => simp [stepElem, hget]
  | some el =>
    cases hwv : el.webview with
    | none => simp [stepElem, hget, hwv]
    | some s =>
      have hset : ∀ u : String,
          domShape (dom.set i { el with webview := some u }) = domShape dom := by
        intro u
        exact domShape_set dom i el u hget (by rw [hwv]; rfl)
      simp only [stepElem, hget, hwv]
      by_cases hin : n.id ∈ ini
      · simp only [if_pos hin]
        split <;> rfl
      · simp only [if_neg hin]
        cases hlu : n.lastUrl with
        | none => split <;> rfl
        | some u =>
          by_cases ht : u ≠ "" ∧ jsTrim u ≠ ""
          · simp only [if_pos ht]
            split <;> simpa using hset u
          · simp only [if_neg ht]
            split <;> rfl

theorem stepElem_ini_mono (n : CanvasNode) (dom : List DomElem) (ini : List String) (i : Nat) :
    ∀ x ∈ ini, x ∈ (stepElem n dom ini i).ini := by
  intro x hx
  cases hget : dom[i]? with
  | none => simpa [stepElem, hget] using hx
  | some el =>
    cases hwv : el.webview with
    | none => simpa [stepElem, hget, hwv] using hx
    | some s =>
      simp only [stepElem, hget, hwv]
      by_cases hin : n.id ∈ ini
      · simp only [if_pos hin]
        split <;> simpa using hx
      · simp only [if_neg hin]
        cases hlu : n.lastUrl with
        | none => split <;> simp [hx]
        | some u =>
          by_cases ht : u ≠ "" ∧ jsTrim u ≠ ""
          · simp only [if_pos ht]
            split <;> simp [hx]
          · simp only [if_neg ht]
            split <;> simp [hx]

theorem stepElem_ini_cases (n : CanvasNode) (dom : List DomElem) (ini : List String) (i : Nat) :
    (stepElem n dom ini i).ini = ini ∨
      (n.id ∉ ini ∧ (stepElem n dom ini i).ini = n.id :: ini) := by
  cases hget : dom[i]? with
  | none => left; simp [stepElem, hget]
  | some el =>
    cases hwv : el.webview with
    | none => left; simp [stepElem, hget, hwv]
    | some s =>
      simp only [stepElem, hget, hwv]
      by_cases hin : n.id ∈ ini
      · left
        simp only [if_pos hin]
        split <;> rfl
      · right
        refine ⟨hin, ?_⟩
        simp only [if_neg hin]
        cases hlu : n.lastUrl with
        | none => split <;> rfl
        | some u =>
          by_cases ht : u ≠ "" ∧ jsTrim u ≠ ""
          · simp only [if_pos ht]
            split <;> rfl
          · simp only [if_neg ht]
            split <;> rfl

theorem stepElem_pushes_cases (n : CanvasNode) (dom : List DomElem) (ini : List String)
    (i : Nat) :
    (stepElem n dom ini i).pushes = [] ∨
      ((stepElem n dom ini i).pushes = [n.id] ∧ n.id ∉ ini ∧
        (stepElem n dom ini i).ini = n.id :: ini) := by
  cases hget : dom[i]? with
  | none => left; simp [stepElem, hget]
  | some el =>
    cases hwv : el.webview with
    | none => left; simp [stepElem, hget, hwv]
    | some s =>
      simp only [stepElem, hget, hwv]
      by_cases hin : n.id ∈ ini
      · left
        simp only [if_pos hin]
        split <;> rfl
      · simp only [if_neg hin]
        cases hlu : n.lastUrl with
        | none => left; split <;> rfl
        | some u =>
          by_cases ht : u ≠ "" ∧ jsTrim u ≠ ""
          · right
            simp only [if_pos ht]
            refine ⟨?_, hin, ?_⟩ <;> (split <;> rfl)
          · left
            simp only [if_neg ht]
            split <;> rfl

theorem stepElem_dom_frame (n : CanvasNode) (dom : List DomElem) (ini : List String)
    (i j : Nat) (hne : j ≠ i) :
    (stepElem n dom ini i).dom[j]? = dom[j]? := by
  cases hget : dom[i]? with
  | none => simp [stepElem, hget]
  | some el =>
    cases hwv : el.webview with
    | none => simp [stepElem, hget, hwv]
    | some s =>
      simp only [stepElem, hget, hwv]
      by_cases hin : n.id ∈ ini
      · simp only [if_pos hin]
        split <;> rfl
      · simp only [if_neg hin]
        cases hlu : n.lastUrl with
        | none => split <;> rfl
        | some u =>
          by_cases ht : u ≠ "" ∧ jsTrim u ≠ ""
          · simp only [if_pos ht]
            have hset : (dom.set i { el with webview := some u })[j]? = dom[j]? :=
              List.getElem?_set_ne hne.symm
            split <;> simpa using hset
          · simp only [if_neg ht]
            split <;> rfl

theorem stepElem_changed_iff (n : CanvasNode) (dom : List DomElem) (ini : List String)
    (i : Nat) :
    (stepElem n dom ini i).changed = true ↔ (stepElem n dom ini i).assigns ≠ [] := by
  cases hget : dom[i]? with
  | none => simp [stepElem, hget]
  | some el =>
    cases hwv : el.webview with
    | none => simp [stepElem, hget, hwv]
    | some s =>
      simp only [stepElem, hget, hwv]
      repeat' split
      all_goals simp

theorem stepElem_unchanged_of_not_changed (n : CanvasNode) (dom : List DomElem)
    (ini : List String) (i : Nat) (h : (stepElem n dom ini i).changed = false) :
    (stepElem n dom ini i).node = n := by
  cases hget : dom[i]? with
  | none => simp [stepElem, hget]
  | some el =>
    cases hwv : el.webview with
    | none => simp [stepElem, hget, hwv]
    | some s =>
      simp only [stepElem, hget, hwv] at h ⊢
      revert h
      repeat' split
      all_goals simp

/-- Two records that agree on every field except possibly `lastUrl` — the
frame the pass is supposed to preserve. -/
def sameExceptLastUrl (a b : CanvasNode) : Prop :=
  b.id = a.id ∧ b.type = a.type ∧ b.url = a.url ∧ b.x = a.x ∧ b.y = a.y ∧
    b.width = a.width ∧ b.height = a.height ∧ b.extra = a.extra

theorem sameExceptLastUrl_refl (a : CanvasNode) : sameExceptLastUrl a a :=
  ⟨rfl, rfl, rfl, rfl, rfl, rfl, rfl, rfl⟩

theorem sameExceptLastUrl_trans {a b c : CanvasNode} (h1 : sameExceptLastUrl a b)
    (h2 : sameExceptLastUrl b c) : sameExceptLastUrl a c := by
  obtain ⟨e1, e2, e3, e4, e5, e6, e7, e8⟩ := h1
  obtain ⟨f1, f2, f3, f4, f5, f6, f7, f8⟩ := h2
  exact ⟨f1.trans e1, f2.trans e2, f3.trans e3, f4.trans e4, f5.trans e5, f6.trans e6,
    f7.trans e7, f8.trans e8⟩

theorem stepElem_same (n : CanvasNode) (dom : List DomElem) (ini : List String) (i : Nat) :
    sameExceptLastUrl n (stepElem n dom ini i).node := by
  cases hget : dom[i]? with
  | none => simp [stepElem, hget, sameExceptLastUrl_refl]
  | some el =>
    cases hwv : el.webview with
    | none => simp [stepElem, hget, hwv, sameExceptLastUrl_refl]
    | some s =>
      simp only [stepElem, hget, hwv]
      repeat' split
      all_goals simp [sameExceptLastUrl, sameExceptLastUrl_refl]

theorem geomMatches_congr_node {a b : CanvasNode} (h : sameExceptLastUrl a b) (e : DomElem) :
    geomMatches b e = geomMatches a e := by
  obtain ⟨-, -, -, hx, hy, hw, hh, -⟩ := h
  simp [geomMatches, hx, hy, hw, hh]

theorem findAllAux_congr_node {a b : CanvasNode} (h : sameExceptLastUrl a b)
    (dom : List DomElem) (i : Nat) : findAllAux b dom i = findAllAux a dom i := by
  induction dom generalizing i with
  | nil => rfl
  | cons e es ih => simp [findAllAux, geomMatches_congr_node h, ih]

theorem wvMatches_congr_node {a b : CanvasNode} (h : sameExceptLastUrl a b)
    (dom : List DomElem) : wvMatches b dom = wvMatches a dom := by
  rw [wvMatches, wvMatches, findAllCanvasNodesInDom, findAllCanvasNodesInDom,
    findAllAux_congr_node h]

theorem findAllAux_congr_dom (n : CanvasNode) {d1 d2 : List DomElem}
    (h : domShape d1 = domShape d2) (i : Nat) : findAllAux n d1 i = findAllAux n d2 i := by
  induction d1 generalizing d2 i with
  | nil =>
    cases d2 with
    | nil => rfl
    | cons e es => simp [domShape] at h
  | cons e es ih =>
    cases d2 with
    | nil => simp [domShape] at h
    | cons f fs =>
      simp only [domShape, List.map_cons, List.cons.injEq, Prod.mk.injEq] at h
      obtain ⟨⟨hx, hy, hw, hh, -⟩, htl⟩ := h
      have hgm : geomMatches n e = geomMatches n f := by
        simp [geomMatches, hx, hy, hw, hh]
      have htl2 : domShape es = domShape fs := by simpa [domShape] using htl
      simp [findAllAux, hgm, ih htl2]

theorem srcAt_isSome_congr {d1 d2 : List DomElem} (h : domShape d1 = domShape d2) (i : Nat) :
    (srcAt d1 i).isSome = (srcAt d2 i).isSome := by
  have hmap : (d1[i]?).map (fun e => (e.x, e.y, e.width, e.height, e.webview.isSome)) =
      (d2[i]?).map (fun e => (e.x, e.y, e.width, e.height, e.webview.isSome)) := by
    rw [← List.getElem?_map, ← List.getElem?_map]
    exact congrArg (fun l => l[i]?) h
  cases h1 : d1[i]? with
  | none =>
    cases h2 : d2[i]? with
    | none => simp [srcAt, h1, h2]
    | some f => rw [h1, h2] at hmap; simp at hmap
  | some e =>
    cases h2 : d2[i]? with
    | none => rw [h1, h2] at hmap; simp at hmap
    | some f =>
      rw [h1, h2] at hmap
      simp only [Option.map_some', Option.some.injEq, Prod.mk.injEq] at hmap
      simp [srcAt, h1, h2, hmap.2.2.2.2]

theorem wvMatches_congr_dom (n : CanvasNode) {d1 d2 : List DomElem}
    (h : domShape d1 = domShape d2) : wvMatches n d1 = wvMatches n d2 := by
  rw [wvMatches, wvMatches, findAllCanvasNodesInDom, findAllCanvasNodesInDom,
    findAllAux_congr_dom n h]
  apply List.filter_congr
  intro i hi
  rw [srcAt_isSome_congr h]

theorem listSetGet {α : Type} (l : List α) (i : Nat) (a e : α) (h : l[i]? = some e) :
    (l.set i a)[i]? = some a := by
  induction l generalizing i with
  | nil => simp at h
  | cons b bs ih =>
    cases i with
    | zero => simp [List.set]
    | succ j =>
      simp only [List.getElem?_cons_succ] at h
      simpa [List.set] using ih j h

theorem processElems_same (n : CanvasNode) (dom : List DomElem) (ini : List String)
    (is : List Nat) : sameExceptLastUrl n (processElems n dom ini is).node := by
  induction is generalizing n dom ini with
  | nil => exact sameExceptLastUrl_refl n
  | cons i is ih =>
    simp only [processElems]
    exact sameExceptLastUrl_trans (stepElem_same n dom ini i) (ih _ _ _)

theorem processElems_shape (n : CanvasNode) (dom : List DomElem) (ini : List String)
    (is : List Nat) : domShape (processElems n dom ini is).dom = domShape dom := by
  induction is generalizing n dom ini with
  | nil => rfl
  | cons i is ih =>
    simp only [processElems]
    rw [ih, stepElem_shape]

theorem processElems_ini_mono (n : CanvasNode) (dom : List DomElem) (ini : List String)
    (is : List Nat) : ∀ x ∈ ini, x ∈ (processElems n dom ini is).ini := by
  induction is generalizing n dom ini with
  | nil => exact fun x hx => hx
  | cons i is ih =>
    intro x hx
    simp only [processElems]
    exact ih _ _ _ x (stepElem_ini_mono n dom ini i x hx)

theorem processElems_pushes_cases (n : CanvasNode) (dom : List DomElem) (ini : List String)
    (is : List Nat) :
    (processElems n dom ini is).pushes = [] ∨
      ((processElems n dom ini is).pushes = [n.id] ∧ n.id ∉ ini ∧
        n.id ∈ (processElems n dom ini is).ini) := by
  induction is generalizing n dom ini with
  | nil => left; rfl
  | cons i is ih =>
    simp only [processElems]
    have hid : (stepElem n dom ini i).node.id = n.id := (stepElem_same n dom ini i).1
    rcases stepElem_pushes_cases n dom ini i with h1 | ⟨h1, hnin, hini⟩
    · rcases ih (stepElem n dom ini i).node (stepElem n dom ini i).dom
          (stepElem n dom ini i).ini with h2 | ⟨h2, hnin2, hini2⟩
      · left; simp [h1, h2]
      · right
        rw [hid] at h2 hnin2 hini2
        refine ⟨by simp [h1, h2], ?_, hini2⟩
        intro hmem
        exact hnin2 (stepElem_ini_mono n dom ini i _ hmem)
    · rcases ih (stepElem n dom ini i).node (stepElem n dom ini i).dom
          (stepElem n dom ini i).ini with h2 | ⟨h2, hnin2, -⟩
      · right
        refine ⟨by simp [h1, h2], hnin, ?_⟩
        have hmem : n.id ∈ (stepElem n dom ini i).ini := by
          rw [hini]; exact List.mem_cons_self _ _
        exact processElems_ini_mono _ _ _ is _ hmem
      · exfalso
        rw [hid] at hnin2
        apply hnin2
        rw [hini]
        exact List.mem_cons_self _ _

theorem processElems_changed_iff (n : CanvasNode) (dom : List DomElem) (ini : List String)
    (is : List Nat) :
    (processElems n dom ini is).changed = true ↔ (processElems n dom ini is).assigns ≠ [] := by
  induction is generalizing n dom ini with
  | nil => simp [processElems]
  | cons i is ih =>
    simp only [processElems]
    rw [Bool.or_eq_true, stepElem_changed_iff, ih]
    rw [Ne, Ne, Ne, List.append_eq_nil, not_and_or]

theorem processElems_unchanged (n : CanvasNode) (dom : List DomElem) (ini : List String)
    (is : List Nat) (h : (processElems n dom ini is).changed = false) :
    (processElems n dom ini is).node = n := by
  induction is generalizing n dom ini with
  | nil => rfl
  | cons i is ih =>
    simp only [processElems] at h ⊢
    rcases Bool.or_eq_false_iff.mp h with ⟨h1, h2⟩
    rw [ih _ _ _ h2, stepElem_unchanged_of_not_changed n dom ini i h1]

theorem processElems_dom_frame (n : CanvasNode) (dom : List DomElem) (ini : List String)
    (is : List Nat) (j : Nat) (hj : j ∉ is) :
    (processElems n dom ini is).dom[j]? = dom[j]? := by
  induction is generalizing n dom ini with
  | nil => rfl
  | cons i is ih =>
    simp only [processElems]
    have hji : j ≠ i := fun he => hj (he ▸ List.mem_cons_self i is)
    have hjs : j ∉ is := fun hm => hj (List.mem_cons_of_mem i hm)
    rw [ih _ _ _ hjs, stepElem_dom_frame n dom ini i j hji]

theorem processElems_skip_all (n : CanvasNode) (dom : List DomElem) (ini : List String)
    (is : List Nat) (h : ∀ i ∈ is, srcAt dom i = none) :
    processElems n dom ini is = ⟨n, dom, ini, false, [], []⟩ := by
  induction is with
  | nil => rfl
  | cons i is ih =>
    have hhead := stepElem_skip n dom ini i (h i (List.mem_cons_self i is))
    have htail := ih (fun x hx => h x (List.mem_cons_of_mem i hx))
    simp only [processElems, hhead, htail, Bool.or_false, List.append_nil]

theorem processElems_single (n : CanvasNode) (dom : List DomElem) (ini : List String)
    (pre : List Nat) (j : Nat) (post : List Nat)
    (hpre : ∀ i ∈ pre, srcAt dom i = none)
    (hj : (srcAt dom j).isSome = true)
    (hpost : ∀ i ∈ post, srcAt dom i = none) :
    processElems n dom ini (pre ++ j :: post) = stepElem n dom ini j := by
  induction pre with
  | nil =>
    simp only [List.nil_append, processElems]
    have hpost2 : ∀ i ∈ post, srcAt (stepElem n dom ini j).dom i = none := by
      intro i hi
      have hne : i ≠ j := by
        intro he
        rw [he] at hi
        rw [hpost j hi] at hj
        simp at hj
      have hframe := stepElem_dom_frame n dom ini j i hne
      rw [srcAt, hframe]
      exact hpost i hi
    rw [processElems_skip_all _ _ _ _ hpost2]
    simp
  | cons p ps ih =>
    have hhead := stepElem_skip n dom ini p (hpre p (List.mem_cons_self p _))
    have htail := ih (fun x hx => hpre x (List.mem_cons_of_mem p hx))
    simp only [List.cons_append, processElems, hhead, Bool.false_or, List.nil_append]
    exact htail

theorem srcAt_elim {dom : List DomElem} {j : Nat} {s : String} (h : srcAt dom j = some s) :
    ∃ el, dom[j]? = some el ∧ el.webview = some s := by
  rw [srcAt] at h
  cases hget : dom[j]? with
  | none => rw [hget] at h; simp at h
  | some el =>
    rw [hget] at h
    simp only [Option.some_bind] at h
    exact ⟨el, rfl, h⟩

theorem stepElem_wv_ini (n : CanvasNode) (dom : List DomElem) (ini : List String) (j : Nat)
    {s : String} (h : srcAt dom j = some s) : n.id ∈ (stepElem n dom ini j).ini := by
  obtain ⟨el, hget, hwv⟩ := srcAt_elim h
  simp only [stepElem, hget, hwv]
  by_cases hin : n.id ∈ ini
  · simp only [if_pos hin]
    repeat' split
    all_goals simpa using hin
  · simp only [if_neg hin]
    repeat' split
    all_goals simp

theorem stepElem_wv_lastUrl (n : CanvasNode) (dom : List DomElem) (ini : List String)
    (j : Nat) {s : String} (h : srcAt dom j = some s) :
    (stepElem n dom ini j).node.lastUrl = srcAt (stepElem n dom ini j).dom j := by
  obtain ⟨el, hget, hwv⟩ := srcAt_elim h
  simp only [stepElem, hget, hwv]
  by_cases hin : n.id ∈ ini
  · simp only [if_pos hin]
    split <;> simp_all
  · simp only [if_neg hin]
    cases hlu : n.lastUrl with
    | none => split <;> simp_all
    | some u =>
      by_cases ht : u ≠ "" ∧ jsTrim u ≠ ""
      · simp only [if_pos ht]
        have hset : srcAt (dom.set j { el with webview := some u }) j = some u := by
          rw [srcAt, listSetGet dom j _ el hget]
          rfl
        split
        · show n.lastUrl = srcAt (dom.set j { el with webview := some u }) j
          rw [hlu, hset]
        · show some ((srcAt (dom.set j { el with webview := some u }) j).getD "") =
            srcAt (dom.set j { el with webview := some u }) j
          rw [hset]
          rfl
      · simp only [if_neg ht]
        split <;> simp_all

theorem stepElem_wv_noop (n : CanvasNode) (dom : List DomElem) (ini : List String) (j : Nat)
    {s : String} (hin : n.id ∈ ini) (h : srcAt dom j = some s) (hl : n.lastUrl = some s) :
    stepElem n dom ini j = ⟨n, dom, ini, false, [], []⟩ := by
  obtain ⟨el, hget, hwv⟩ := srcAt_elim h
  simp only [stepElem, hget, hwv, if_pos hin]
  rw [if_pos (show n.lastUrl = some ((srcAt dom j).getD "") by rw [hl, h]; rfl)]

theorem filter_eq_singleton {α : Type} (p : α → Bool) (l : List α) (a : α)
    (h : l.filter p = [a]) :
    ∃ pre post, l = pre ++ a :: post ∧ (∀ x ∈ pre, p x = false) ∧
      (∀ x ∈ post, p x = false) := by
  induction l with
  | nil => simp at h
  | cons b bs ih =>
    rw [List.filter_cons] at h
    cases hp : p b with
    | true =>
      rw [if_pos (by simp [hp])] at h
      obtain ⟨hba, hrest⟩ := List.cons.injEq .. ▸ h
      refine ⟨[], bs, by simp [hba], by simp, ?_⟩
      intro x hx
      have := List.filter_eq_nil_iff.mp hrest x hx
      simpa using this
    | false =>
      rw [if_neg (by simp [hp])] at h
      obtain ⟨pre, post, h1, h2, h3⟩ := ih h
      refine ⟨b :: pre, post, by rw [h1]; rfl, ?_, h3⟩
      intro x hx
      rcases List.mem_cons.mp hx with hxb | hxp
      · rw [hxb]; exact hp
      · exact h2 x hxp

theorem processLinkNode_nil_wv (n : CanvasNode) (dom : List DomElem) (ini : List String)
    (h : wvMatches n dom = []) :
    processLinkNode n dom ini = ⟨n, dom, ini, false, [], []⟩ := by
  rw [processLinkNode]
  apply processElems_skip_all
  intro i hi
  have hall := List.filter_eq_nil_iff.mp h
  have h2 := hall i hi
  cases hcase : srcAt dom i with
  | none => rfl
  | some s => rw [hcase] at h2; simp at h2

theorem processLinkNode_single_wv (n : CanvasNode) (dom : List DomElem) (ini : List String)
    (j : Nat) (h : wvMatches n dom = [j]) :
    processLinkNode n dom ini = stepElem n dom ini j ∧ ∃ s, srcAt dom j = some s := by
  have hjmem : j ∈ wvMatches n dom := by rw [h]; exact List.mem_singleton.mpr rfl
  have hj : (srcAt dom j).isSome = true := (List.mem_filter.mp hjmem).2
  obtain ⟨pre, post, hsplit, hpre, hpost⟩ := filter_eq_singleton _ _ _ h
  constructor
  · rw [processLinkNode, hsplit]
    apply processElems_single
    · intro i hi
      have h2 := hpre i hi
      cases hcase : srcAt dom i with
      | none => rfl
      | some s => rw [hcase] at h2; simp at h2
    · exact hj
    · intro i hi
      have h2 := hpost i hi
      cases hcase : srcAt dom i with
      | none => rfl
      | some s => rw [hcase] at h2; simp at h2
  · exact Option.isSome_iff_exists.mp hj

theorem processElems_dom_frame2 (n : CanvasNode) (dom : List DomElem) (ini : List String)
    (is : List Nat) (j : Nat) (hj : srcAt dom j = none) :
    (processElems n dom ini is).dom[j]? = dom[j]? := by
  induction is generalizing n dom ini with
  | nil => rfl
  | cons i is ih =>
    simp only [processElems]
    by_cases hij : i = j
    · subst hij
      rw [stepElem_skip n dom ini i hj]
      exact ih _ _ _ hj
    · have hframe := stepElem_dom_frame n dom ini i j (fun he => hij he.symm)
      have hj2 : srcAt (stepElem n dom ini i).dom j = none := by
        rw [srcAt, hframe]
        exact hj
      rw [ih _ _ _ hj2, hframe]

theorem processLinkNode_shape (n : CanvasNode) (dom : List DomElem) (ini : List String) :
    domShape (processLinkNode n dom ini).dom = domShape dom := by
  rw [processLinkNode]
  exact processElems_shape _ _ _ _

theorem processLinkNode_ini_mono (n : CanvasNode) (dom : List DomElem) (ini : List String) :
    ∀ x ∈ ini, x ∈ (processLinkNode n dom ini).ini := by
  rw [processLinkNode]
  exact processElems_ini_mono _ _ _ _

theorem processLinkNode_changed_iff (n : CanvasNode) (dom : List DomElem) (ini : List String) :
    (processLinkNode n dom ini).changed = true ↔ (processLinkNode n dom ini).assigns ≠ [] := by
  rw [processLinkNode]
  exact processElems_changed_iff _ _ _ _

theorem processLinkNode_same (n : CanvasNode) (dom : List DomElem) (ini : List String) :
    sameExceptLastUrl n (processLinkNode n dom ini).node := by
  rw [processLinkNode]
  exact processElems_same _ _ _ _

theorem processLinkNode_unchanged (n : CanvasNode) (dom : List DomElem) (ini : List String)
    (h : (processLinkNode n dom ini).changed = false) :
    (processLinkNode n dom ini).node = n := by
  rw [processLinkNode] at h ⊢
  exact processElems_unchanged _ _ _ _ h

theorem processLinkNode_pushes_cases (n : CanvasNode) (dom : List DomElem)
    (ini : List String) :
    (processLinkNode n dom ini).pushes = [] ∨
      ((processLinkNode n dom ini).pushes = [n.id] ∧ n.id ∉ ini ∧
        n.id ∈ (processLinkNode n dom ini).ini) := by
  rw [processLinkNode]
  exact processElems_pushes_cases _ _ _ _

theorem processLinkNode_dom_outside (n : CanvasNode) (dom : List DomElem) (ini : List String)
    (j : Nat) (hj : j ∉ wvMatches n dom) :
    (processLinkNode n dom ini).dom[j]? = dom[j]? := by
  rw [processLinkNode]
  by_cases hmem : j ∈ findAllCanvasNodesInDom n dom
  · have hsome : ¬((srcAt dom j).isSome = true) := by
      intro hs
      exact hj (List.mem_filter.mpr ⟨hmem, hs⟩)
    have hnone : srcAt dom j = none := by
      cases hcase : srcAt dom j with
      | none => rfl
      | some s => rw [hcase] at hsome; simp at hsome
    exact processElems_dom_frame2 _ _ _ _ _ hnone
  · exact processElems_dom_frame _ _ _ _ _ hmem

theorem processNodes_shape (ns : List CanvasNode) (dom : List DomElem) (ini : List String) :
    domShape (processNodes ns dom ini).dom = domShape dom := by
  induction ns generalizing dom ini with
  | nil => rfl
  | cons n ns ih =>
    simp only [processNodes]
    split
    · exact (ih _ _).trans (processLinkNode_shape n dom ini)
    · exact ih dom ini

theorem processNodes_ini_mono (ns : List CanvasNode) (dom : List DomElem) (ini : List String) :
    ∀ x ∈ ini, x ∈ (processNodes ns dom ini).ini := by
  induction ns generalizing dom ini with
  | nil => exact fun x hx => hx
  | cons n ns ih =>
    simp only [processNodes]
    split
    · exact fun x hx => ih _ _ x (processLinkNode_ini_mono n dom ini x hx)
    · exact ih dom ini

theorem processNodes_changed_iff (ns : List CanvasNode) (dom : List DomElem)
    (ini : List String) :
    (processNodes ns dom ini).changed = true ↔ (processNodes ns dom ini).assigns ≠ [] := by
  induction ns generalizing dom ini with
  | nil => simp [processNodes]
  | cons n ns ih =>
    simp only [processNodes]
    split
    · show ((processLinkNode n dom ini).changed || _) = true ↔ ¬(_ ++ _ = [])
      rw [Bool.or_eq_true, processLinkNode_changed_iff, ih, List.append_eq_nil, not_and_or]
    · exact ih dom ini

theorem processNodes_unchanged (ns : List CanvasNode) (dom : List DomElem) (ini : List String)
    (h : (processNodes ns dom ini).changed = false) :
    (processNodes ns dom ini).nodes = ns := by
  induction ns generalizing dom ini with
  | nil => rfl
  | cons n ns ih =>
    simp only [processNodes] at h ⊢
    revert h
    split
    · intro h
      have h2 : (processLinkNode n dom ini).changed = false ∧ _ = false :=
        Bool.or_eq_false_iff.mp h
      show (processLinkNode n dom ini).node :: _ = n :: ns
      rw [processLinkNode_unchanged n dom ini h2.1, ih _ _ h2.2]
    · intro h
      show n :: _ = n :: ns
      rw [ih _ _ h]

theorem processNodes_nth (ns : List CanvasNode) (dom : List DomElem) (ini : List String) :
    ∀ (k : Nat) (n : CanvasNode), ns[k]? = some n →
      ∃ n2, (processNodes ns dom ini).nodes[k]? = some n2 ∧ sameExceptLastUrl n n2 ∧
        (¬n.type = "link" → n2 = n) ∧ (findAllCanvasNodesInDom n dom = [] → n2 = n) := by
  induction ns generalizing dom ini with
  | nil => intro k n h; simp at h
  | cons m ms ih =>
    intro k n h
    by_cases hl : m.type = "link"
    · simp only [processNodes, if_pos hl]
      cases k with
      | zero =>
        simp only [List.getElem?_cons_zero, Option.some.injEq] at h
        subst h
        refine ⟨(processLinkNode m dom ini).node, by simp, processLinkNode_same m dom ini,
          fun hne => absurd hl hne, ?_⟩
        intro hfa
        have hw : wvMatches m dom = [] := by
          rw [wvMatches, hfa]
          rfl
        rw [processLinkNode_nil_wv m dom ini hw]
      | succ k2 =>
        simp only [List.getElem?_cons_succ] at h
        obtain ⟨n2, h1, h2, h3, h4⟩ :=
          ih (processLinkNode m dom ini).dom (processLinkNode m dom ini).ini k2 n h
        refine ⟨n2, by simpa using h1, h2, h3, ?_⟩
        intro hfa
        apply h4
        rw [findAllCanvasNodesInDom] at hfa ⊢
        rw [findAllAux_congr_dom n (processLinkNode_shape m dom ini) 0]
        exact hfa
    · simp only [processNodes, if_neg hl]
      cases k with
      | zero =>
        simp only [List.getElem?_cons_zero, Option.some.injEq] at h
        subst h
        exact ⟨m, by simp, sameExceptLastUrl_refl m, fun _ => rfl, fun _ => rfl⟩
      | succ k2 =>
        simp only [List.getElem?_cons_succ] at h
        obtain ⟨n2, h1, h2, h3, h4⟩ := ih dom ini k2 n h
        exact ⟨n2, by simpa using h1, h2, h3, h4⟩

theorem processNodes_pushes (ns : List CanvasNode) (dom : List DomElem) (ini : List String)
    (x : String) :
    (processNodes ns dom ini).pushes.count x ≤ 1 ∧
      (x ∈ (processNodes ns dom ini).pushes →
        x ∉ ini ∧ x ∈ (processNodes ns dom ini).ini) := by
  induction ns generalizing dom ini with
  | nil => exact ⟨by simp [processNodes], by simp [processNodes]⟩
  | cons m ms ih =>
    by_cases hl : m.type = "link"
    · simp only [processNodes, if_pos hl]
      obtain ⟨ihc, ihm⟩ := ih (processLinkNode m dom ini).dom (processLinkNode m dom ini).ini
      rcases processLinkNode_pushes_cases m dom ini with hp | ⟨hp, hnin, hmem⟩
      · rw [hp]
        constructor
        · simpa using ihc
        · intro hx
          rw [List.nil_append] at hx
          obtain ⟨hx1, hx2⟩ := ihm hx
          refine ⟨fun hmemini => hx1 (processLinkNode_ini_mono m dom ini x hmemini), hx2⟩
      · rw [hp]
        constructor
        · rw [List.count_append]
          by_cases hxm : x = m.id
          · have hc2 : (processNodes ms (processLinkNode m dom ini).dom
                (processLinkNode m dom ini).ini).pushes.count x = 0 := by
              rw [List.count_eq_zero]
              intro hmem2
              exact (ihm hmem2).1 (hxm ▸ hmem)
            rw [hc2]
            subst hxm
            simp
          · have hc1 : List.count x [m.id] = 0 := by
              rw [List.count_eq_zero]
              simpa using hxm
            rw [hc1]
            simpa using ihc
        · intro hx
          rcases List.mem_append.mp hx with hx1 | hx2
          · have hxm : x = m.id := by simpa using hx1
            subst hxm
            exact ⟨hnin, processNodes_ini_mono ms _ _ _ hmem⟩
          · obtain ⟨ha, hb⟩ := ihm hx2
            exact ⟨fun hini => ha (processLinkNode_ini_mono m dom ini x hini), hb⟩
    · simp only [processNodes, if_neg hl]
      exact ih dom ini

theorem processNodes_length (ns : List CanvasNode) (dom : List DomElem) (ini : List String) :
    (processNodes ns dom ini).nodes.length = ns.length := by
  induction ns generalizing dom ini with
  | nil => rfl
  | cons m ms ih =>
    by_cases hl : m.type = "link"
    · simp only [processNodes, if_pos hl, List.length_cons, ih]
    · simp only [processNodes, if_neg hl, List.length_cons, ih]

theorem doPollingWork_pushes (s : PollState) (x : String) :
    ((doPollingWork s).pushes.count x ≤ 1) ∧
      (x ∈ (doPollingWork s).pushes →
        x ∉ s.hasInit ∧ x ∈ (doPollingWork s).state.hasInit) ∧
      (∀ y ∈ s.hasInit, y ∈ (doPollingWork s).state.hasInit) := by
  obtain ⟨a, dom, ini⟩ := s
  match a with
  | none => exact ⟨by simp [doPollingWork], by simp [doPollingWork], by simp [doPollingWork]⟩
  | some none =>
    exact ⟨by simp [doPollingWork], by simp [doPollingWork], by simp [doPollingWork]⟩
  | some (some d) =>
    have hp := processNodes_pushes d.nodes dom ini x
    have hm := processNodes_ini_mono d.nodes dom ini
    simp only [doPollingWork]
    split
    · exact ⟨hp.1, hp.2, hm⟩
    · exact ⟨hp.1, hp.2, hm⟩

theorem lifetimePushes_of_mem (s : PollState)
    (fs : List (List DomElem → Option (Option CanvasData) →
      List DomElem × Option (Option CanvasData)))
    (x : String) (hx : x ∈ s.hasInit) : (lifetimePushes s fs).count x = 0 := by
  induction fs generalizing s with
  | nil => simp [lifetimePushes]
  | cons f fs ih =>
    simp only [lifetimePushes]
    rw [List.count_append]
    have h1 := doPollingWork_pushes s x
    have hcount : (doPollingWork s).pushes.count x = 0 := by
      rw [List.count_eq_zero]
      intro hmem
      exact (h1.2.1 hmem).1 hx
    rw [hcount]
    simpa using ih ⟨(f (doPollingWork s).state.dom (doPollingWork s).state.active).2,
      (f (doPollingWork s).state.dom (doPollingWork s).state.active).1,
      (doPollingWork s).state.hasInit⟩ (h1.2.2 x hx)

/-- C3: over a whole process lifetime — any number of polling passes starting
from any state, with arbitrary external interference replacing the DOM and the
document between passes — a record id's stored address is pushed into a live
webview (`webview.src = node.lastUrl`) at most once: the pass adds the id to
the in-memory first-seen set in the same step as the first push, the set only
ever grows, and a push requires the id to be absent from the set. -/
theorem c3_push_at_most_once (s : PollState)
    (fs : List (List DomElem → Option (Option CanvasData) →
      List DomElem × Option (Option CanvasData)))
    (x : String) : (lifetimePushes s fs).count x ≤ 1 := by
  induction fs generalizing s with
  | nil => simp [lifetimePushes]
  | cons f fs ih =>
    simp only [lifetimePushes]
    rw [List.count_append]
    have h1 := doPollingWork_pushes s x
    by_cases hx : x ∈ (doPollingWork s).pushes
    · have hmem : x ∈ (doPollingWork s).state.hasInit := (h1.2.1 hx).2
      have hzero := lifetimePushes_of_mem
        ⟨(f (doPollingWork s).state.dom (doPollingWork s).state.active).2,
          (f (doPollingWork s).state.dom (doPollingWork s).state.active).1,
          (doPollingWork s).state.hasInit⟩ fs x hmem
      rw [hzero]
      have := h1.1
      omega
    · have hcount : (doPollingWork s).pushes.count x = 0 := by
        rw [List.count_eq_zero]
        exact hx
      rw [hcount]
      simpa using ih _

/-- C10: a reconciliation pass touches at most the `lastUrl` field of `link`
records: the edges and every other field of every record (`id`, `type`, `url`,
geometry, unknown extension fields) are unchanged, non-`link` records are
unchanged entirely, and records with no geometrically matching visual element
are unchanged entirely. -/
theorem c10_pass_frame (s : PollState) (d : CanvasData) (h : s.active = some (some d)) :
    ∃ ns2, (doPollingWork s).state.active = some (some ⟨ns2, d.edges⟩) ∧
      ns2.length = d.nodes.length ∧
      ∀ (k : Nat) (n : CanvasNode), d.nodes[k]? = some n →
        ∃ n2, ns2[k]? = some n2 ∧
          n2.id = n.id ∧ n2.type = n.type ∧ n2.url = n.url ∧ n2.x = n.x ∧ n2.y = n.y ∧
          n2.width = n.width ∧ n2.height = n.height ∧ n2.extra = n.extra ∧
          (¬n.type = "link" → n2 = n) ∧
          (findAllCanvasNodesInDom n s.dom = [] → n2 = n) := by
  obtain ⟨a, dom, ini⟩ := s
  cases h
  simp only [doPollingWork]
  split
  · refine ⟨(processNodes d.nodes dom ini).nodes, rfl, processNodes_length d.nodes dom ini, ?_⟩
    intro k n hk
    obtain ⟨n2, h1, h2, h3, h4⟩ := processNodes_nth d.nodes dom ini k n hk
    exact ⟨n2, h1, h2.1, h2.2.1, h2.2.2.1, h2.2.2.2.1, h2.2.2.2.2.1, h2.2.2.2.2.2.1,
      h2.2.2.2.2.2.2.1, h2.2.2.2.2.2.2.2, h3, h4⟩
  · rename_i hc
    have hnodes : (processNodes d.nodes dom ini).nodes = d.nodes :=
      processNodes_unchanged d.nodes dom ini (by simpa using hc)
    refine ⟨d.nodes, rfl, rfl, ?_⟩
    intro k n hk
    exact ⟨n, hk, rfl, rfl, rfl, rfl, rfl, rfl, rfl, rfl, fun _ => rfl, fun _ => rfl⟩

def c10Doc : CanvasData :=
  ⟨[⟨"a", "link", none, 0, 0, 100, 100, none, [("k", "v")]⟩,
    ⟨"b", "text", none, 0, 0, 50, 50, none, []⟩], ["edge1"]⟩

def c10State : PollState :=
  ⟨some (some c10Doc), [⟨0, 0, 100, 100, some "https://chatgpt.com/c/q"⟩], []⟩

/-- C10 witness: a concrete state with a `link` record, a non-`link` record
and one matching element. -/
theorem c10_witness :
    ∃ ns2, (doPollingWork c10State).state.active = some (some ⟨ns2, c10Doc.edges⟩) ∧
      ns2.length = c10Doc.nodes.length ∧
      ∀ (k : Nat) (n : CanvasNode), c10Doc.nodes[k]? = some n →
        ∃ n2, ns2[k]? = some n2 ∧
          n2.id = n.id ∧ n2.type = n.type ∧ n2.url = n.url ∧ n2.x = n.x ∧ n2.y = n.y ∧
          n2.width = n.width ∧ n2.height = n.height ∧ n2.extra = n.extra ∧
          (¬n.type = "link" → n2 = n) ∧
          (findAllCanvasNodesInDom n c10State.dom = [] → n2 = n) :=
  c10_pass_frame c10State c10Doc rfl

/-- Master invariant of one pass under disjoint matching: the DOM is untouched
at indices no processed `link` record matches, and every `link` record whose
webview-matching elements are exactly `[j]` ends the loop with its `lastUrl`
equal to the final live `src` of element `j` and its id marked first-seen. -/
theorem processNodes_master (ns : List CanvasNode) (dom : List DomElem) (ini : List String)
    (h2 : List.Pairwise (fun a b => a.type = "link" → b.type = "link" →
      ∀ j ∈ wvMatches a dom, j ∉ wvMatches b dom) ns) :
    (∀ j : Nat, (∀ n ∈ ns, n.type = "link" → j ∉ wvMatches n dom) →
        (processNodes ns dom ini).dom[j]? = dom[j]?) ∧
    (∀ (k : Nat) (n : CanvasNode) (j : Nat), ns[k]? = some n → n.type = "link" →
        wvMatches n dom = [j] →
        ∃ n2, (processNodes ns dom ini).nodes[k]? = some n2 ∧
          n2.lastUrl = srcAt (processNodes ns dom ini).dom j ∧
          n.id ∈ (processNodes ns dom ini).ini) := by
  induction ns generalizing dom ini with
  | nil =>
    constructor
    · intro j _
      rfl
    · intro k n j hk
      simp at hk
  | cons m ms ih =>
    rw [List.pairwise_cons] at h2
    obtain ⟨hhead, htail⟩ := h2
    by_cases hl : m.type = "link"
    · have hshape : domShape (processLinkNode m dom ini).dom = domShape dom :=
        processLinkNode_shape m dom ini
      have hwv : ∀ a : CanvasNode,
          wvMatches a (processLinkNode m dom ini).dom = wvMatches a dom :=
        fun a => wvMatches_congr_dom a hshape
      have htail2 : List.Pairwise (fun a b => a.type = "link" → b.type = "link" →
          ∀ j ∈ wvMatches a (processLinkNode m dom ini).dom,
            j ∉ wvMatches b (processLinkNode m dom ini).dom) ms := by
        refine htail.imp ?_
        intro a b hab ha hb j hj
        rw [hwv b]
        rw [hwv a] at hj
        exact hab ha hb j hj
      obtain ⟨ihframe, ihnth⟩ :=
        ih (processLinkNode m dom ini).dom (processLinkNode m dom ini).ini htail2
      simp only [processNodes, if_pos hl]
      constructor
      · intro j hj
        have hjm : j ∉ wvMatches m dom := hj m (List.mem_cons_self m ms) hl
        have hd1 : (processLinkNode m dom ini).dom[j]? = dom[j]? :=
          processLinkNode_dom_outside m dom ini j hjm
        have hd2 := ihframe j (fun b hb hlb => by
          rw [hwv b]
          exact hj b (List.mem_cons_of_mem m hb) hlb)
        exact hd2.trans hd1
      · intro k n j hk hlink hwvn
        cases k with
        | zero =>
          simp only [List.getElem?_cons_zero, Option.some.injEq] at hk
          subst hk
          obtain ⟨hstep, s, hsrc⟩ := processLinkNode_single_wv m dom ini j hwvn
          have hlu : (processLinkNode m dom ini).node.lastUrl =
              srcAt (processLinkNode m dom ini).dom j := by
            rw [hstep]
            exact stepElem_wv_lastUrl m dom ini j hsrc
          have hjmem : j ∈ wvMatches m dom := by
            rw [hwvn]
            exact List.mem_singleton.mpr rfl
          have hfr := ihframe j (fun b hb hlb => by
            rw [hwv b]
            exact hhead b hb hl hlb j hjmem)
          refine ⟨(processLinkNode m dom ini).node, by simp, ?_, ?_⟩
          · rw [hlu, srcAt, srcAt, hfr]
          · have hini1 : m.id ∈ (processLinkNode m dom ini).ini := by
              rw [hstep]
              exact stepElem_wv_ini m dom ini j hsrc
            exact processNodes_ini_mono ms _ _ _ hini1
        | succ k2 =>
          simp only [List.getElem?_cons_succ] at hk
          have hwvn2 : wvMatches n (processLinkNode m dom ini).dom = [j] := by
            rw [hwv n]
            exact hwvn
          obtain ⟨n2, hn1, hn2, hn3⟩ := ihnth k2 n j hk hlink hwvn2
          exact ⟨n2, by simpa using hn1, hn2, hn3⟩
    · obtain ⟨ihframe, ihnth⟩ := ih dom ini htail
      simp only [processNodes, if_neg hl]
      constructor
      · intro j hj
        exact ihframe j (fun b hb hlb => hj b (List.mem_cons_of_mem m hb) hlb)
      · intro k n j hk hlink hwvn
        cases k with
        | zero =>
          simp only [List.getElem?_cons_zero, Option.some.injEq] at hk
          subst hk
          exact absurd hlink hl
        | succ k2 =>
          simp only [List.getElem?_cons_succ] at hk
          obtain ⟨n2, hn1, hn2, hn3⟩ := ihnth k2 n j hk hlink hwvn
          exact ⟨n2, by simpa using hn1, hn2, hn3⟩

/-- A pass over records that are each either unmatched or already settled
(first-seen and storing their unique element's live address) does nothing. -/
theorem processNodes_noop (ns : List CanvasNode) (dom : List DomElem) (ini : List String)
    (hn : ∀ n ∈ ns, n.type = "link" →
      (wvMatches n dom = [] ∨
        ∃ j, wvMatches n dom = [j] ∧ n.id ∈ ini ∧ n.lastUrl = srcAt dom j)) :
    processNodes ns dom ini = ⟨ns, dom, ini, false, [], []⟩ := by
  induction ns with
  | nil => rfl
  | cons m ms ih =>
    have htl := ih (fun b hb hlb => hn b (List.mem_cons_of_mem m hb) hlb)
    by_cases hl : m.type = "link"
    · have hid : processLinkNode m dom ini = ⟨m, dom, ini, false, [], []⟩ := by
        rcases hn m (List.mem_cons_self m ms) hl with hnil | ⟨j, hj, hin, hlu⟩
        · exact processLinkNode_nil_wv m dom ini hnil
        · obtain ⟨hstep, s, hsrc⟩ := processLinkNode_single_wv m dom ini j hj
          have hlu2 : m.lastUrl = some s := by rw [hlu, hsrc]
          rw [hstep]
          exact stepElem_wv_noop m dom ini j hin hsrc hlu2
      simp only [processNodes, if_pos hl, hid, htl, Bool.or_false, List.append_nil]
    · simp only [processNodes, if_neg hl, htl]

/-- After one pass under disjoint at-most-one matching, a second pass over the
resulting document, DOM and first-seen set does nothing at all. -/
theorem processNodes_twice_noop (ns : List CanvasNode) (dom : List DomElem) (ini : List String)
    (hdisj : List.Pairwise (fun a b => a.type = "link" → b.type = "link" →
      ∀ j ∈ wvMatches a dom, j ∉ wvMatches b dom) ns)
    (hone : ∀ n ∈ ns, n.type = "link" → (wvMatches n dom).length ≤ 1) :
    processNodes (processNodes ns dom ini).nodes (processNodes ns dom ini).dom
        (processNodes ns dom ini).ini =
      ⟨(processNodes ns dom ini).nodes, (processNodes ns dom ini).dom,
        (processNodes ns dom ini).ini, false, [], []⟩ := by
  apply processNodes_noop
  intro n2 hmem hlink2
  obtain ⟨k, hk⟩ := List.mem_iff_getElem?.mp hmem
  have hklt : k < (processNodes ns dom ini).nodes.length := (List.getElem?_eq_some.mp hk).1
  have hklt2 : k < ns.length := by
    rw [← processNodes_length ns dom ini]
    exact hklt
  have hkorig : ns[k]? = some ns[k] := List.getElem?_eq_getElem hklt2
  obtain ⟨n2x, hn1, hsame, -, -⟩ := processNodes_nth ns dom ini k ns[k] hkorig
  have hn2eq : n2x = n2 := by
    rw [hn1] at hk
    exact Option.some.injEq .. ▸ hk
  subst hn2eq
  have hlink : ns[k].type = "link" := by
    rw [← hsame.2.1]
    exact hlink2
  have hwv2 : wvMatches n2x (processNodes ns dom ini).dom = wvMatches ns[k] dom := by
    rw [wvMatches_congr_node hsame, wvMatches_congr_dom ns[k] (processNodes_shape ns dom ini)]
  have hlen := hone ns[k] (List.getElem_mem hklt2) hlink
  rcases hcase : wvMatches ns[k] dom with _ | ⟨j, rest⟩
  · left
    rw [hwv2, hcase]
  · have hrest : rest = [] := by
      rw [hcase] at hlen
      simp only [List.length_cons] at hlen
      exact List.length_eq_zero.mp (by omega)
    subst hrest
    right
    obtain ⟨-, ihnth⟩ := processNodes_master ns dom ini hdisj
    obtain ⟨n2y, hm1, hm2, hm3⟩ := ihnth k ns[k] j hkorig hlink hcase
    have hyx : n2y = n2x := by
      rw [hn1] at hm1
      exact (Option.some.inj hm1).symm
    subst hyx
    refine ⟨j, by rw [hwv2, hcase], ?_, hm2⟩
    rw [hsame.1]
    exact hm3

/-- C2 (amended): the pass calls `vault.modify` exactly when some record's
`lastUrl` was assigned a different value during the pass; and — provided each
`link` record matches at most one webview-bearing element and no two `link`
records match the same one — a second pass with no intervening visual or
document change performs no write.  (Without that proviso the second half
fails, see the counterexample: two elements with different addresses matching
one record make `lastUrl` oscillate and force a write on every pass.) -/
theorem c2_amended_write_iff_idempotent (s : PollState) (d : CanvasData)
    (hact : s.active = some (some d))
    (hone : ∀ n ∈ d.nodes, n.type = "link" → (wvMatches n s.dom).length ≤ 1)
    (hdisj : List.Pairwise (fun a b => a.type = "link" → b.type = "link" →
      ∀ j ∈ wvMatches a s.dom, j ∉ wvMatches b s.dom) d.nodes) :
    ((doPollingWork s).wrote = true ↔ (doPollingWork s).assigns ≠ []) ∧
      (doPollingWork (doPollingWork s).state).wrote = false := by
  obtain ⟨a, dom, ini⟩ := s
  cases hact
  have hiff := processNodes_changed_iff d.nodes dom ini
  have hkey := processNodes_twice_noop d.nodes dom ini hdisj hone
  simp only [doPollingWork]
  by_cases hc : (processNodes d.nodes dom ini).changed = true
  · rw [if_pos hc]
    refine ⟨⟨fun _ => hiff.mp hc, fun _ => rfl⟩, ?_⟩
    show (doPollingWork ⟨some (some ⟨(processNodes d.nodes dom ini).nodes, d.edges⟩),
      (processNodes d.nodes dom ini).dom, (processNodes d.nodes dom ini).ini⟩).wrote = false
    have hc2 : ¬((processNodes (processNodes d.nodes dom ini).nodes
        (processNodes d.nodes dom ini).dom (processNodes d.nodes dom ini).ini).changed = true) := by
      rw [hkey]
      simp
    simp only [doPollingWork]
    rw [if_neg hc2]
  · rw [if_neg hc]
    have hchf : (processNodes d.nodes dom ini).changed = false := by
      simpa using hc
    refine ⟨⟨fun h => absurd h (by simp), fun ha => absurd (hiff.mpr ha) hc⟩, ?_⟩
    show (doPollingWork ⟨some (some d), (processNodes d.nodes dom ini).dom,
      (processNodes d.nodes dom ini).ini⟩).wrote = false
    have hun : (processNodes d.nodes dom ini).nodes = d.nodes :=
      processNodes_unchanged d.nodes dom ini hchf
    rw [hun] at hkey
    have hc2 : ¬((processNodes d.nodes
        (processNodes d.nodes dom ini).dom (processNodes d.nodes dom ini).ini).changed = true) := by
      rw [hkey]
      simp
    simp only [doPollingWork]
    rw [if_neg hc2]

/-- C6 (amended): after one reconciliation pass, a `link` record whose
geometry is matched by exactly one webview-bearing element — no other link
record matching that element — ends the pass with its stored `lastUrl` equal
to that element's live address.  (Without the uniqueness proviso the claim
fails, see the counterexample: with two matching elements only the last one's
address is stored.) -/
theorem c6_amended_store_equals_live (s : PollState) (d : CanvasData)
    (hact : s.active = some (some d))
    (hdisj : List.Pairwise (fun a b => a.type = "link" → b.type = "link" →
      ∀ j ∈ wvMatches a s.dom, j ∉ wvMatches b s.dom) d.nodes)
    (k : Nat) (n : CanvasNode) (j : Nat)
    (hk : d.nodes[k]? = some n) (hlink : n.type = "link")
    (hwv : wvMatches n s.dom = [j]) :
    ∃ ns2, (doPollingWork s).state.active = some (some ⟨ns2, d.edges⟩) ∧
      ∃ n2, ns2[k]? = some n2 ∧ n2.lastUrl = srcAt (doPollingWork s).state.dom j := by
  obtain ⟨a, dom, ini⟩ := s
  cases hact
  obtain ⟨-, ihnth⟩ := processNodes_master d.nodes dom ini hdisj
  obtain ⟨n2, h1, h2, -⟩ := ihnth k n j hk hlink hwv
  simp only [doPollingWork]
  by_cases hc : (processNodes d.nodes dom ini).changed = true
  · rw [if_pos hc]
    exact ⟨(processNodes d.nodes dom ini).nodes, rfl, n2, h1, h2⟩
  · rw [if_neg hc]
    have hun : (processNodes d.nodes dom ini).nodes = d.nodes :=
      processNodes_unchanged d.nodes dom ini (by simpa using hc)
    refine ⟨d.nodes, rfl, n2, ?_, h2⟩
    rw [← hun]
    exact h1

def c2wNode : CanvasNode := ⟨"p1", "link", none, 0, 0, 10, 10, none, []⟩

def c2wState : PollState := ⟨some (some ⟨[c2wNode], []⟩), [⟨0, 0, 10, 10, some "https://x"⟩], []⟩

/-- C2 witness: one record matching one webview element; the hypotheses of the
amended claim hold and the second pass does not write. -/
theorem c2_amended_witness :
    ((doPollingWork c2wState).wrote = true ↔ (doPollingWork c2wState).assigns ≠ []) ∧
      (doPollingWork (doPollingWork c2wState).state).wrote = false :=
  c2_amended_write_iff_idempotent c2wState ⟨[c2wNode], []⟩ rfl (by decide) (by simp)

def c6wNode : CanvasNode :=
  ⟨"w1", "link", some "https://chatgpt.com", 200, -1000, 760, 800, none, []⟩

def c6wState : PollState :=
  ⟨some (some ⟨[c6wNode], []⟩),
    [⟨200, -1000, 760, 800, some "https://chatgpt.com/c/abc"⟩], []⟩

/-- C6 witness: the create-then-sync scenario — a link record at
`(200, -1000, 760, 800)` created with address `https://chatgpt.com` (and no
`lastUrl` yet), whose matching element's live webview shows
`https://chatgpt.com/c/abc`; after one pass the stored address equals that
live address. -/
theorem c6_amended_witness :
    (∃ ns2, (doPollingWork c6wState).state.active = some (some ⟨ns2, ([] : List String)⟩) ∧
      ∃ n2, ns2[0]? = some n2 ∧ n2.lastUrl = srcAt (doPollingWork c6wState).state.dom 0) ∧
      srcAt (doPollingWork c6wState).state.dom 0 = some "https://chatgpt.com/c/abc" :=
  ⟨c6_amended_store_equals_live c6wState ⟨[c6wNode], []⟩ rfl (by simp) 0 c6wNode 0 rfl rfl
    (by rfl), rfl⟩

/-! ## Decimal literals and the matrix regex round trip (for the universal
claims about `parseTransformToXY`). -/

/-- The character of a decimal digit. -/
def digitChar10 (i : Fin 10) : Char := Char.ofNat (48 + i.val)

/-- A decimal number literal: optional minus sign, integer digits, fraction
digits (empty fraction renders without a dot). -/
structure DecLit where
  neg : Bool
  intDs : List (Fin 10)
  fracDs : List (Fin 10)

/-- The text of the literal. -/
def DecLit.render (d : DecLit) : List Char :=
  (if d.neg then ['-'] else []) ++ d.intDs.map digitChar10 ++
    (if d.fracDs = [] then [] else '.' :: d.fracDs.map digitChar10)

/-- Value of a digit sequence, most significant first. -/
def natOfFins (ds : List (Fin 10)) : Nat := ds.foldl (fun a i => 10 * a + i.val) 0

/-- The rational value of the literal. -/
def DecLit.val (d : DecLit) : ℚ :=
  mkRat ((if d.neg then (-1 : Int) else 1) *
      ((natOfFins d.intDs * 10 ^ d.fracDs.length + natOfFins d.fracDs : Nat) : Int))
    (10 ^ d.fracDs.length)

theorem digitChar10_isDigit : ∀ i : Fin 10, (digitChar10 i).isDigit = true := by decide

theorem digitChar10_digitVal : ∀ i : Fin 10, digitVal (digitChar10 i) = i.val := by decide

theorem digitChar10_not_ws : ∀ i : Fin 10, isWsChar (digitChar10 i) = false := by decide

theorem digitChar10_num : ∀ i : Fin 10, isNumChar (digitChar10 i) = true := by decide

theorem digitChar10_ne : ∀ i : Fin 10, digitChar10 i ≠ '-' ∧ digitChar10 i ≠ '+' ∧
    digitChar10 i ≠ '.' ∧ digitChar10 i ≠ ',' ∧ digitChar10 i ≠ ')' := by decide

theorem foldl_digitChar10 (ds : List (Fin 10)) :
    ∀ a : Nat, (ds.map digitChar10).foldl (fun x c => 10 * x + digitVal c) a =
      ds.foldl (fun x i => 10 * x + i.val) a := by
  induction ds with
  | nil => intro a; rfl
  | cons i is ih =>
    intro a
    simp only [List.map_cons, List.foldl_cons, digitChar10_digitVal, ih]

theorem natOfDigits_map (ds : List (Fin 10)) :
    natOfDigits (ds.map digitChar10) = natOfFins ds :=
  foldl_digitChar10 ds 0

theorem tw_app (p : Char → Bool) (xs ys : List Char) (hx : ∀ c ∈ xs, p c = true)
    (hy : ∀ y, ys.head? = some y → p y = false) : (xs ++ ys).takeWhile p = xs := by
  induction xs with
  | nil =>
    cases ys with
    | nil => rfl
    | cons y ys2 => simp [List.takeWhile, hy y rfl]
  | cons x xs2 ih =>
    have hpx := hx x (List.mem_cons_self x xs2)
    simp only [List.cons_append, List.takeWhile_cons, hpx, if_true, List.cons.injEq, true_and]
    exact ih (fun c hc => hx c (List.mem_cons_of_mem x hc))

theorem dw_app (p : Char → Bool) (xs ys : List Char) (hx : ∀ c ∈ xs, p c = true)
    (hy : ∀ y, ys.head? = some y → p y = false) : (xs ++ ys).dropWhile p = ys := by
  induction xs with
  | nil =>
    cases ys with
    | nil => rfl
    | cons y ys2 => simp [List.dropWhile, hy y rfl]
  | cons x xs2 ih =>
    have hpx := hx x (List.mem_cons_self x xs2)
    simp only [List.cons_append, List.dropWhile_cons, hpx, if_true]
    exact ih (fun c hc => hx c (List.mem_cons_of_mem x hc))

theorem dropWhile_eq_self_of_head (p : Char → Bool) (l : List Char)
    (h : ∀ y, l.head? = some y → p y = false) : l.dropWhile p = l := by
  cases l with
  | nil => rfl
  | cons c cs => simp [List.dropWhile, h c rfl]

theorem render_all_num (d : DecLit) : ∀ c ∈ d.render, isNumChar c = true := by
  intro c hc
  rw [DecLit.render] at hc
  rcases List.mem_append.mp hc with h1 | h2
  · rcases List.mem_append.mp h1 with h3 | h4
    · by_cases hneg : d.neg = true
      · rw [if_pos hneg] at h3
        have hcm : c = '-' := by simpa using h3
        rw [hcm]
        rfl
      · rw [if_neg hneg] at h3
        simp at h3
    · obtain ⟨i, -, hi⟩ := List.mem_map.mp h4
      rw [← hi]
      exact digitChar10_num i
  · by_cases hf : d.fracDs = []
    · rw [if_pos hf] at h2
      simp at h2
    · rw [if_neg hf] at h2
      rcases List.mem_cons.mp h2 with h3 | h4
      · rw [h3]
        rfl
      · obtain ⟨i, -, hi⟩ := List.mem_map.mp h4
        rw [← hi]
        exact digitChar10_num i

theorem render_head (d : DecLit) (hne : d.intDs ≠ []) :
    ∃ c, d.render.head? = some c ∧ isWsChar c = false ∧ isNumChar c = true := by
  rw [DecLit.render]
  by_cases hneg : d.neg = true
  · rw [if_pos hneg]
    exact ⟨'-', by simp, rfl, rfl⟩
  · rw [if_neg hneg]
    rcases hd : d.intDs with _ | ⟨i, is⟩
    · exact absurd hd hne
    · exact ⟨digitChar10 i, by simp, digitChar10_not_ws i, digitChar10_num i⟩

theorem render_ne_nil (d : DecLit) (hne : d.intDs ≠ []) : d.render ≠ [] := by
  obtain ⟨c, hc, -, -⟩ := render_head d hne
  intro h
  rw [h] at hc
  simp at hc
/-- The part of `jsParseFloat` after whitespace and sign handling, abstracted
over the sign and the remaining input. -/
def jpfCore (sgn : Int) (cs1 : List Char) : Option ℚ :=
  let ints := cs1.takeWhile Char.isDigit
  let r1 := cs1.dropWhile Char.isDigit
  let fracs : List Char := if r1.head? = some '.' then r1.tail.takeWhile Char.isDigit else []
  let r2 : List Char := if r1.head? = some '.' then r1.tail.dropWhile Char.isDigit else r1
  if ints = [] ∧ fracs = [] then none
  else
    let k := fracs.length
    let base : ℚ :=
      mkRat (sgn * ((natOfDigits ints * 10 ^ k + natOfDigits fracs : Nat) : Int)) (10 ^ k)
    if r2.head? = some 'e' ∨ r2.head? = some 'E' then some (applyExp base r2.tail)
    else some base

theorem jsParseFloat_eq_core (cs0 : List Char) :
    jsParseFloat cs0 =
      jpfCore (if (cs0.dropWhile isWsChar).head? = some '-' then -1 else 1)
        (if (cs0.dropWhile isWsChar).head? = some '-' ∨ (cs0.dropWhile isWsChar).head? = some '+'
          then (cs0.dropWhile isWsChar).tail else cs0.dropWhile isWsChar) := rfl

theorem map_digits_all (ds : List (Fin 10)) :
    ∀ c ∈ ds.map digitChar10, Char.isDigit c = true := by
  intro c hc
  obtain ⟨i, -, hi⟩ := List.mem_map.mp hc
  rw [← hi]
  exact digitChar10_isDigit i

theorem fracPart_head (fracDs : List (Fin 10)) :
    ∀ y, (if fracDs = [] then ([] : List Char) else '.' :: fracDs.map digitChar10).head? = some y →
      Char.isDigit y = false := by
  intro y hy
  by_cases hf : fracDs = []
  · rw [if_pos hf] at hy
    simp at hy
  · rw [if_neg hf] at hy
    simp only [List.head?_cons, Option.some.injEq] at hy
    rw [← hy]
    rfl

theorem tw_digits_map (ds : List (Fin 10)) :
    (ds.map digitChar10).takeWhile Char.isDigit = ds.map digitChar10 := by
  have h := tw_app Char.isDigit (ds.map digitChar10) [] (map_digits_all ds) (fun y hy => by simp at hy)
  simpa using h

theorem dw_digits_map (ds : List (Fin 10)) :
    (ds.map digitChar10).dropWhile Char.isDigit = [] := by
  have h := dw_app Char.isDigit (ds.map digitChar10) [] (map_digits_all ds) (fun y hy => by simp at hy)
  simpa using h

theorem jpfCore_digits (sgn : Int) (intDs fracDs : List (Fin 10)) (hne : intDs ≠ []) :
    jpfCore sgn (intDs.map digitChar10 ++
        if fracDs = [] then [] else '.' :: fracDs.map digitChar10) =
      some (mkRat (sgn * ((natOfFins intDs * 10 ^ fracDs.length + natOfFins fracDs : Nat) : Int))
        (10 ^ fracDs.length)) := by
  have hM : intDs.map digitChar10 ≠ [] := by simpa using hne
  have h0 : natOfDigits [] = 0 := rfl
  have h1 : natOfFins [] = 0 := rfl
  by_cases hf : fracDs = []
  · subst hf
    simp only [jpfCore, if_true, List.append_nil]
    rw [tw_digits_map, dw_digits_map]
    simp [hM, natOfDigits_map, h0, h1]
  · rw [if_neg hf]
    have htw := tw_app Char.isDigit (intDs.map digitChar10) ('.' :: fracDs.map digitChar10)
      (map_digits_all intDs)
      (fun y hy => by
        simp only [List.head?_cons, Option.some.injEq] at hy
        rw [← hy]
        rfl)
    have hdw := dw_app Char.isDigit (intDs.map digitChar10) ('.' :: fracDs.map digitChar10)
      (map_digits_all intDs)
      (fun y hy => by
        simp only [List.head?_cons, Option.some.injEq] at hy
        rw [← hy]
        rfl)
    simp only [jpfCore]
    rw [htw, hdw]
    simp [hM, tw_digits_map, dw_digits_map, natOfDigits_map]

theorem jsParseFloat_render (d : DecLit) (hne : d.intDs ≠ []) :
    jsParseFloat d.render = some d.val := by
  rw [jsParseFloat_eq_core]
  by_cases hneg : d.neg = true
  · have hrend : d.render = '-' :: (d.intDs.map digitChar10 ++
        if d.fracDs = [] then [] else '.' :: d.fracDs.map digitChar10) := by
      rw [DecLit.render, if_pos hneg]
      rfl
    rw [hrend]
    show jpfCore (-1) (d.intDs.map digitChar10 ++
        if d.fracDs = [] then [] else '.' :: d.fracDs.map digitChar10) = some d.val
    rw [jpfCore_digits (-1) d.intDs d.fracDs hne, DecLit.val, if_pos hneg]
  · rcases hint : d.intDs with _ | ⟨i, is⟩
    · exact absurd hint hne
    · have hrend : d.render = digitChar10 i :: (is.map digitChar10 ++
          if d.fracDs = [] then [] else '.' :: d.fracDs.map digitChar10) := by
        rw [DecLit.render, if_neg hneg, hint]
        rfl
      rw [hrend]
      have hdw1 : (digitChar10 i :: (is.map digitChar10 ++
          if d.fracDs = [] then [] else '.' :: d.fracDs.map digitChar10)).dropWhile isWsChar =
          digitChar10 i :: (is.map digitChar10 ++
          if d.fracDs = [] then [] else '.' :: d.fracDs.map digitChar10) := by
        rw [List.dropWhile_cons, digitChar10_not_ws i]
        simp
      rw [hdw1]
      simp only [List.head?_cons, List.tail_cons]
      rw [if_neg (fun h => (digitChar10_ne i).1 (Option.some.inj h))]
      rw [if_neg (fun h => h.elim (fun h1 => (digitChar10_ne i).1 (Option.some.inj h1))
        (fun h2 => (digitChar10_ne i).2.1 (Option.some.inj h2)))]
      rw [show digitChar10 i :: (is.map digitChar10 ++
          if d.fracDs = [] then [] else '.' :: d.fracDs.map digitChar10) =
          d.intDs.map digitChar10 ++
          (if d.fracDs = [] then [] else '.' :: d.fracDs.map digitChar10) from by rw [hint]; rfl]
      rw [jpfCore_digits 1 d.intDs d.fracDs hne, DecLit.val, if_neg hneg]
theorem numCapture_render (d : DecLit) (rest : List Char) (hne : d.intDs ≠ [])
    (hr : ∀ y, rest.head? = some y → isNumChar y = false) :
    numCapture (d.render ++ rest) = some (d.render, rest) := by
  have htw := tw_app isNumChar d.render rest (render_all_num d) hr
  have hdw := dw_app isNumChar d.render rest (render_all_num d) hr
  rcases hrd : d.render with _ | ⟨c, cs⟩
  · exact absurd hrd (render_ne_nil d hne)
  · rw [hrd] at htw hdw
    simp only [numCapture, htw, hdw]

theorem head_append_render_not_ws (d : DecLit) (hne : d.intDs ≠ []) (x : List Char) :
    ∀ y, (d.render ++ x).head? = some y → isWsChar y = false := by
  obtain ⟨c, hc, hw, -⟩ := render_head d hne
  rcases hrd : d.render with _ | ⟨a, as⟩
  · exact absurd hrd (render_ne_nil d hne)
  · rw [hrd] at hc
    simp only [List.head?_cons, Option.some.injEq] at hc
    intro y hy
    simp only [List.cons_append, List.head?_cons, Option.some.injEq] at hy
    rw [← hy, hc]
    exact hw

/-- The text after the first number of a comma-separated argument list: a
comma, then optional whitespace, then the next number, and so on, ending in
`tail`. -/
def renderTail : List (List Char × DecLit) → List Char → List Char
  | [], tail => tail
  | (w, d) :: rest, tail => ',' :: (w ++ (d.render ++ renderTail rest tail))

theorem capsAux_render (ds : List (List Char × DecLit)) :
    ∀ (d0 : DecLit) (tail : List Char), d0.intDs ≠ [] →
    (∀ p ∈ ds, (∀ c ∈ p.1, isWsChar c = true) ∧ p.2.intDs ≠ []) →
    (∀ y, tail.head? = some y → isNumChar y = false) →
    capsAux (ds.length + 1) (d0.render ++ renderTail ds tail) =
      some (d0.render :: ds.map (fun p => p.2.render), tail) := by
  induction ds with
  | nil =>
    intro d0 tail h0 _ htail
    have hnum := numCapture_render d0 tail h0 htail
    show capsAux (0 + 1) (d0.render ++ tail) = some ([d0.render], tail)
    simp only [capsAux, hnum]
  | cons p ds2 ih =>
    intro d0 tail h0 hds htail
    obtain ⟨hw, hd⟩ := hds p (List.mem_cons_self p ds2)
    rcases p with ⟨w, d⟩
    have hnum := numCapture_render d0 (',' :: (w ++ (d.render ++ renderTail ds2 tail))) h0
      (fun y hy => by
        simp only [List.head?_cons, Option.some.injEq] at hy
        rw [← hy]
        rfl)
    have hdrop : (w ++ (d.render ++ renderTail ds2 tail)).dropWhile isWsChar =
        d.render ++ renderTail ds2 tail :=
      dw_app isWsChar w _ hw (head_append_render_not_ws d hd _)
    have hrec := ih d tail hd (fun q hq => hds q (List.mem_cons_of_mem (w, d) hq)) htail
    show capsAux (ds2.length + 1 + 1) (d0.render ++ renderTail ((w, d) :: ds2) tail) =
      some (d0.render :: ((w, d) :: ds2).map (fun p => p.2.render), tail)
    simp only [renderTail, List.map_cons]
    simp only [capsAux, hnum, hdrop, hrec]
theorem eatLit_self (l : List Char) : ∀ rest : List Char, eatLit l (l ++ rest) = some rest := by
  induction l with
  | nil => intro rest; rfl
  | cons c cs ih =>
    intro rest
    show eatLit (c :: cs) (c :: (cs ++ rest)) = some rest
    simp only [eatLit, if_pos rfl]
    exact ih rest

theorem matrixExec_render (w0 w1 w2 w3 w4 w5 : List Char) (d1 d2 d3 d4 d5 d6 : DecLit)
    (suffix : List Char)
    (hw0 : ∀ c ∈ w0, isWsChar c = true) (hw1 : ∀ c ∈ w1, isWsChar c = true)
    (hw2 : ∀ c ∈ w2, isWsChar c = true) (hw3 : ∀ c ∈ w3, isWsChar c = true)
    (hw4 : ∀ c ∈ w4, isWsChar c = true) (hw5 : ∀ c ∈ w5, isWsChar c = true)
    (hd1 : d1.intDs ≠ []) (hd2 : d2.intDs ≠ []) (hd3 : d3.intDs ≠ [])
    (hd4 : d4.intDs ≠ []) (hd5 : d5.intDs ≠ []) (hd6 : d6.intDs ≠ []) :
    matrixExec ("matrix(".data ++ (w0 ++ (d1.render ++
        renderTail [(w1, d2), (w2, d3), (w3, d4), (w4, d5), (w5, d6)] (')' :: suffix)))) =
      some [d1.render, d2.render, d3.render, d4.render, d5.render, d6.render] := by
  have heat := eatLit_self "matrix(".data
    (w0 ++ (d1.render ++ renderTail [(w1, d2), (w2, d3), (w3, d4), (w4, d5), (w5, d6)] (')' :: suffix)))
  have hdrop : (w0 ++ (d1.render ++
      renderTail [(w1, d2), (w2, d3), (w3, d4), (w4, d5), (w5, d6)] (')' :: suffix))).dropWhile isWsChar =
      d1.render ++ renderTail [(w1, d2), (w2, d3), (w3, d4), (w4, d5), (w5, d6)] (')' :: suffix) :=
    dw_app isWsChar w0 _ hw0 (head_append_render_not_ws d1 hd1 _)
  have hcaps := capsAux_render [(w1, d2), (w2, d3), (w3, d4), (w4, d5), (w5, d6)] d1 (')' :: suffix)
    hd1
    (by
      intro q hq
      fin_cases hq
      · exact ⟨hw1, hd2⟩
      · exact ⟨hw2, hd3⟩
      · exact ⟨hw3, hd4⟩
      · exact ⟨hw4, hd5⟩
      · exact ⟨hw5, hd6⟩)
    (fun y hy => by
      simp only [List.head?_cons, Option.some.injEq] at hy
      rw [← hy]
      rfl)
  simp only [matrixExec, heat, hdrop]
  simp only [List.length_cons, List.length_nil] at hcaps
  rw [hcaps]
  simp
/-- C9: for every valid 6-argument `matrix(...)` transform string — optional
whitespace after the opening parenthesis and after each comma, each argument a
signed decimal literal (negative and fractional values included), anything
after the closing parenthesis — `parseTransformToXY` returns exactly the 5th
and 6th numeric arguments as `(x, y)`; and for the empty string or the literal
`"none"` it returns `(0, 0)`. -/
theorem c9_matrix_fifth_sixth (w0 w1 w2 w3 w4 w5 : List Char) (d1 d2 d3 d4 d5 d6 : DecLit)
    (suffix : List Char)
    (hw0 : ∀ c ∈ w0, isWsChar c = true) (hw1 : ∀ c ∈ w1, isWsChar c = true)
    (hw2 : ∀ c ∈ w2, isWsChar c = true) (hw3 : ∀ c ∈ w3, isWsChar c = true)
    (hw4 : ∀ c ∈ w4, isWsChar c = true) (hw5 : ∀ c ∈ w5, isWsChar c = true)
    (hd1 : d1.intDs ≠ []) (hd2 : d2.intDs ≠ []) (hd3 : d3.intDs ≠ [])
    (hd4 : d4.intDs ≠ []) (hd5 : d5.intDs ≠ []) (hd6 : d6.intDs ≠ []) :
    parseTransformToXY ⟨"matrix(".data ++ (w0 ++ (d1.render ++
        renderTail [(w1, d2), (w2, d3), (w3, d4), (w4, d5), (w5, d6)] (')' :: suffix)))⟩ =
      (some d5.val, some d6.val) ∧
    parseTransformToXY "" = (some 0, some 0) ∧
    parseTransformToXY "none" = (some 0, some 0) := by
  refine ⟨?_, rfl, rfl⟩
  have hmx := matrixExec_render w0 w1 w2 w3 w4 w5 d1 d2 d3 d4 d5 d6 suffix
    hw0 hw1 hw2 hw3 hw4 hw5 hd1 hd2 hd3 hd4 hd5 hd6
  have hne_str : ¬((⟨"matrix(".data ++ (w0 ++ (d1.render ++
      renderTail [(w1, d2), (w2, d3), (w3, d4), (w4, d5), (w5, d6)] (')' :: suffix)))⟩ : String) = "" ∨
      (⟨"matrix(".data ++ (w0 ++ (d1.render ++
      renderTail [(w1, d2), (w2, d3), (w3, d4), (w4, d5), (w5, d6)] (')' :: suffix)))⟩ : String) = "none") := by
    intro h
    rcases h with h | h
    · exact List.cons_ne_nil 'm' _ (congrArg String.data h)
    · have h2 := congrArg String.data h
      injection h2 with h3 h4
      exact absurd h3 (by decide)
  rw [parseTransformToXY, if_neg hne_str]
  rw [show (⟨"matrix(".data ++ (w0 ++ (d1.render ++
      renderTail [(w1, d2), (w2, d3), (w3, d4), (w4, d5), (w5, d6)] (')' :: suffix)))⟩ : String).data =
      "matrix(".data ++ (w0 ++ (d1.render ++
      renderTail [(w1, d2), (w2, d3), (w3, d4), (w4, d5), (w5, d6)] (')' :: suffix))) from rfl]
  simp only [hmx]
  show (jsParseFloat d5.render, jsParseFloat d6.render) = (some d5.val, some d6.val)
  rw [jsParseFloat_render d5 hd5, jsParseFloat_render d6 hd6]

theorem c9_witness :
    parseTransformToXY "matrix(1,0,0,1,-42.5,17)" = (some (mkRat (-85) 2), some (mkRat 17 1)) ∧
    parseTransformToXY "" = (some 0, some 0) ∧
    parseTransformToXY "none" = (some 0, some 0) := by
  have h := c9_matrix_fifth_sixth [] [] [] [] [] []
    ⟨false, [1], []⟩ ⟨false, [0], []⟩ ⟨false, [0], []⟩ ⟨false, [1], []⟩
    ⟨true, [4, 2], [5]⟩ ⟨false, [1, 7], []⟩ []
    (by decide) (by decide) (by decide) (by decide) (by decide) (by decide)
    (by decide) (by decide) (by decide) (by decide) (by decide) (by decide)
  exact h
/-- One chained CSS function call as matched by `(\w+)\(([^)]+)\)`: a name and
the raw argument text. -/
structure FnCall where
  name : List Char
  args : List Char

/-- Validity of a call for the regex: nonempty word-character name, nonempty
argument text free of `)`. -/
def callOk (f : FnCall) : Prop :=
  f.name ≠ [] ∧ (∀ c ∈ f.name, isWordChar c = true) ∧ f.args ≠ [] ∧ ∀ c ∈ f.args, c ≠ ')'

/-- The text of one call followed by a continuation. -/
def renderCallT (f : FnCall) (t : List Char) : List Char :=
  f.name ++ ('(' :: (f.args ++ ')' :: t))

/-- The text of a chain of calls, each preceded by separator characters. -/
def renderChain : List (List Char × FnCall) → List Char
  | [] => []
  | (sep, f) :: rest => sep ++ renderCallT f (renderChain rest)

/-- Comma-separated argument text from a list of argument pieces. -/
def joinComma : List (List Char) → List Char
  | [] => []
  | [a] => a
  | a :: b :: rest => a ++ ',' :: joinComma (b :: rest)

theorem tryCall_not_word (c : Char) (rest : List Char) (h : isWordChar c = false) :
    tryCall (c :: rest) = none := by
  simp only [tryCall, List.takeWhile_cons, h, Bool.false_eq_true, if_false]

theorem tryCall_render (f : FnCall) (t : List Char) (hok : callOk f) :
    tryCall (renderCallT f t) = some (f.name, f.args, t) := by
  obtain ⟨hn, hnw, ha, har⟩ := hok
  rcases hname : f.name with _ | ⟨n0, ns⟩
  · exact absurd hname hn
  rcases hargs2 : f.args with _ | ⟨a0, as⟩
  · exact absurd hargs2 ha
  rw [hname] at hnw
  rw [hargs2] at har
  have htw1 := tw_app isWordChar (n0 :: ns) ('(' :: ((a0 :: as) ++ ')' :: t)) hnw
    (fun y hy => by
      simp only [List.head?_cons, Option.some.injEq] at hy
      rw [← hy]
      rfl)
  have hdw1 := dw_app isWordChar (n0 :: ns) ('(' :: ((a0 :: as) ++ ')' :: t)) hnw
    (fun y hy => by
      simp only [List.head?_cons, Option.some.injEq] at hy
      rw [← hy]
      rfl)
  have htw2 := tw_app (fun c => decide (c ≠ ')')) (a0 :: as) (')' :: t)
    (fun c hc => decide_eq_true (har c hc))
    (fun y hy => by
      simp only [List.head?_cons, Option.some.injEq] at hy
      rw [← hy]
      rfl)
  have hdw2 := dw_app (fun c => decide (c ≠ ')')) (a0 :: as) (')' :: t)
    (fun c hc => decide_eq_true (har c hc))
    (fun y hy => by
      simp only [List.head?_cons, Option.some.injEq] at hy
      rw [← hy]
      rfl)
  rw [show renderCallT f t = (n0 :: ns) ++ ('(' :: ((a0 :: as) ++ ')' :: t)) from by
    rw [renderCallT, hname, hargs2]]
  simp only [tryCall, htw1, hdw1, htw2, hdw2]

theorem scanFuel_nil_any (f : Nat) : scanFuel f [] = [] := by
  cases f <;> rfl

theorem paren_mem_renderChain (sep : List Char) (fc : FnCall) (rest : List (List Char × FnCall)) :
    '(' ∈ renderChain ((sep, fc) :: rest) := by
  simp [renderChain, renderCallT]

theorem renderChain_append (l1 l2 : List (List Char × FnCall)) :
    renderChain (l1 ++ l2) = renderChain l1 ++ renderChain l2 := by
  induction l1 with
  | nil => rfl
  | cons p l ih =>
    rcases p with ⟨sep, fc⟩
    show sep ++ renderCallT fc (renderChain (l ++ l2)) =
      (sep ++ renderCallT fc (renderChain l)) ++ renderChain l2
    rw [ih, renderCallT, renderCallT]
    simp [List.append_assoc]
theorem scanFuel_chain : ∀ (f : Nat) (chain : List (List Char × FnCall)),
    (renderChain chain).length ≤ f →
    (∀ p ∈ chain, (∀ c ∈ p.1, isWordChar c = false) ∧ callOk p.2) →
    scanFuel f (renderChain chain) = chain.map (fun p => (p.2.name, p.2.args)) := by
  intro f
  induction f with
  | zero =>
    intro chain hlen hok
    rcases chain with _ | ⟨⟨sep, fc⟩, rest⟩
    · rfl
    · exfalso
      have h1 := paren_mem_renderChain sep fc rest
      rw [List.length_eq_zero.mp (Nat.le_zero.mp hlen)] at h1
      simp at h1
  | succ f ih =>
    intro chain hlen hok
    rcases chain with _ | ⟨⟨sep, fc⟩, rest⟩
    · rfl
    · rcases sep with _ | ⟨c, sep2⟩
      · obtain ⟨-, hco⟩ := hok _ (List.mem_cons_self _ _)
        rcases hname : fc.name with _ | ⟨n0, ns⟩
        · exact absurd hname hco.1
        have hform : renderChain (([], fc) :: rest) =
            n0 :: (ns ++ ('(' :: (fc.args ++ ')' :: renderChain rest))) := by
          show renderCallT fc (renderChain rest) = _
          rw [renderCallT, hname]
          rfl
        have hform2 : n0 :: (ns ++ ('(' :: (fc.args ++ ')' :: renderChain rest))) =
            renderCallT fc (renderChain rest) := by
          rw [renderCallT, hname]
          rfl
        have hlen2 : (renderChain rest).length ≤ f := by
          rw [hform] at hlen
          simp only [List.length_cons, List.length_append] at hlen
          omega
        rw [hform]
        simp only [scanFuel]
        rw [hform2, tryCall_render fc (renderChain rest) hco]
        show (fc.name, fc.args) :: scanFuel f (renderChain rest) = _
        rw [ih rest hlen2 (fun q hq => hok q (List.mem_cons_of_mem _ hq))]
        simp
      · obtain ⟨hsep, hco⟩ := hok _ (List.mem_cons_self _ _)
        have hcw : isWordChar c = false := hsep c (List.mem_cons_self c sep2)
        have hform : renderChain ((c :: sep2, fc) :: rest) =
            c :: (sep2 ++ renderCallT fc (renderChain rest)) := by
          show (c :: sep2) ++ renderCallT fc (renderChain rest) = _
          rfl
        have hlen2 : (renderChain ((sep2, fc) :: rest)).length ≤ f := by
          rw [hform] at hlen
          show (sep2 ++ renderCallT fc (renderChain rest)).length ≤ f
          simp only [List.length_cons] at hlen
          omega
        have hok2 : ∀ p ∈ (sep2, fc) :: rest,
            (∀ c ∈ p.1, isWordChar c = false) ∧ callOk p.2 := by
          intro p hp
          rcases List.mem_cons.mp hp with h | h
          · rw [h]
            exact ⟨fun x hx => hsep x (List.mem_cons_of_mem c hx), hco⟩
          · exact hok p (List.mem_cons_of_mem _ h)
        rw [hform]
        simp only [scanFuel]
        rw [tryCall_not_word c _ hcw]
        show scanFuel f (sep2 ++ renderCallT fc (renderChain rest)) = _
        rw [show sep2 ++ renderCallT fc (renderChain rest) =
          renderChain ((sep2, fc) :: rest) from rfl]
        rw [ih ((sep2, fc) :: rest) hlen2 hok2]
        simp
theorem splitComma_no_comma : ∀ (a : List Char), (∀ c ∈ a, c ≠ ',') → splitComma a = [a] := by
  intro a
  induction a with
  | nil => intro _; rfl
  | cons c rest ih =>
    intro h
    have hc : c ≠ ',' := h c (List.mem_cons_self _ _)
    simp only [splitComma, if_neg hc]
    rw [ih (fun x hx => h x (List.mem_cons_of_mem c hx))]

theorem splitComma_append : ∀ (a : List Char), (∀ c ∈ a, c ≠ ',') → ∀ t : List Char,
    splitComma (a ++ ',' :: t) = a :: splitComma t := by
  intro a
  induction a with
  | nil =>
    intro _ t
    show splitComma (',' :: t) = [] :: splitComma t
    simp [splitComma]
  | cons c rest ih =>
    intro h t
    have hc : c ≠ ',' := h c (List.mem_cons_self _ _)
    show splitComma (c :: (rest ++ ',' :: t)) = (c :: rest) :: splitComma t
    simp only [splitComma, if_neg hc]
    rw [ih (fun x hx => h x (List.mem_cons_of_mem c hx)) t]

theorem splitComma_joinComma : ∀ (args2 : List (List Char)) (a1 : List Char),
    (∀ a ∈ a1 :: args2, ∀ c ∈ a, c ≠ ',') →
    splitComma (joinComma (a1 :: args2)) = a1 :: args2 := by
  intro args2
  induction args2 with
  | nil =>
    intro a1 h
    exact splitComma_no_comma a1 (h a1 (List.mem_cons_self _ _))
  | cons a2 rest ih =>
    intro a1 h
    rw [show joinComma (a1 :: a2 :: rest) = a1 ++ ',' :: joinComma (a2 :: rest) from rfl]
    rw [splitComma_append a1 (h a1 (List.mem_cons_self _ _)) (joinComma (a2 :: rest))]
    rw [ih a2 (fun a ha => h a (List.mem_cons_of_mem a1 ha))]

theorem foldCalls_append (l1 l2 : List (List Char × List Char)) :
    ∀ xy, foldCalls xy (l1 ++ l2) = foldCalls (foldCalls xy l1) l2 := by
  induction l1 with
  | nil => intro xy; rfl
  | cons p l ih =>
    intro xy
    rcases p with ⟨fn, raw⟩
    rcases xy with ⟨x, y⟩
    simp only [List.cons_append, foldCalls]
    exact ih _

theorem foldCalls_no_translate : ∀ (l : List (List Char × List Char)),
    (∀ p ∈ l, p.1 ≠ "translate".data) → ∀ xy, foldCalls xy l = xy := by
  intro l
  induction l with
  | nil => intro _ xy; rfl
  | cons p l2 ih =>
    intro h xy
    rcases p with ⟨fn, raw⟩
    rcases xy with ⟨x, y⟩
    have hfn : fn ≠ "translate".data := h (fn, raw) (List.mem_cons_self _ _)
    simp only [foldCalls, if_neg hfn]
    exact ih (fun q hq => h q (List.mem_cons_of_mem _ hq)) (x, y)

theorem foldCalls_translate_step (xy : Option ℚ × Option ℚ) (a1 : List Char)
    (args2 : List (List Char)) (hnc : ∀ a ∈ a1 :: args2, ∀ c ∈ a, c ≠ ',') :
    foldCalls xy [("translate".data, joinComma (a1 :: args2))] =
      (jsParseFloat (trimChars a1),
        match args2.head? with
        | none => some 0
        | some a2 => jsParseFloat (trimChars a2)) := by
  rcases xy with ⟨x, y⟩
  have hsplit := splitComma_joinComma args2 a1 hnc
  simp only [foldCalls, if_pos rfl, hsplit]
  rcases args2 with _ | ⟨a2, rest⟩
  · rfl
  · rfl
/-- C8: for every transform string that is a chain of function calls (names of
word characters, arguments free of `)`, separated by non-word characters) not
recognized as a leading `matrix` or `matrix3d` form, `parseTransformToXY`
scans all chained calls and, when a `translate` call is present whose comma
separated arguments are `a1 :: args2` and no later call is a `translate`,
returns the parsed (trimmed) first argument as x and the parsed second
argument as y — or 0 when the translate has a single argument; e.g.
`"translate(10px, -5px) scale(2)"` yields `(10, -5)` and `"translate(7px)"`
yields `(7, 0)`. -/
theorem c8_last_translate (chain pre post : List (List Char × FnCall)) (sep a1 : List Char)
    (args2 : List (List Char)) (tc : FnCall)
    (hchain : chain = pre ++ (sep, tc) :: post)
    (hok : ∀ p ∈ chain, (∀ c ∈ p.1, isWordChar c = false) ∧ callOk p.2)
    (htn : tc.name = "translate".data)
    (hta : tc.args = joinComma (a1 :: args2))
    (hnc : ∀ a ∈ a1 :: args2, ∀ c ∈ a, c ≠ ',')
    (hpost : ∀ p ∈ post, p.2.name ≠ "translate".data)
    (hm1 : matrixExec (renderChain chain) = none)
    (hm2 : matrix3dExec (renderChain chain) = none) :
    parseTransformToXY ⟨renderChain chain⟩ =
      (jsParseFloat (trimChars a1),
        match args2.head? with
        | none => some 0
        | some a2 => jsParseFloat (trimChars a2)) ∧
    parseTransformToXY "translate(10px, -5px) scale(2)" = (some (mkRat 10 1), some (mkRat (-5) 1)) ∧
    parseTransformToXY "translate(7px)" = (some (mkRat 7 1), some 0) := by
  refine ⟨?_, rfl, rfl⟩
  have hmem : '(' ∈ renderChain chain := by
    rw [hchain, renderChain_append]
    exact List.mem_append_right _ (paren_mem_renderChain sep tc post)
  have hne_str : ¬((⟨renderChain chain⟩ : String) = "" ∨
      (⟨renderChain chain⟩ : String) = "none") := by
    rintro (h | h)
    · have h2 : renderChain chain = ([] : List Char) := congrArg String.data h
      rw [h2] at hmem
      simp at hmem
    · have h2 : renderChain chain = "none".data := congrArg String.data h
      rw [h2] at hmem
      exact absurd hmem (by decide)
  rw [parseTransformToXY, if_neg hne_str]
  rw [show (⟨renderChain chain⟩ : String).data = renderChain chain from rfl]
  simp only [hm1, hm2]
  rw [show scanCalls (renderChain chain) = chain.map (fun p => (p.2.name, p.2.args)) from
    scanFuel_chain (renderChain chain).length chain (le_refl _) hok]
  rw [hchain]
  simp only [List.map_append, List.map_cons]
  rw [htn, hta]
  rw [show List.map (fun p => (p.2.name, p.2.args)) pre ++
      ("translate".data, joinComma (a1 :: args2)) :: List.map (fun p => (p.2.name, p.2.args)) post =
      (List.map (fun p => (p.2.name, p.2.args)) pre ++
        [("translate".data, joinComma (a1 :: args2))]) ++
        List.map (fun p => (p.2.name, p.2.args)) post from by simp]
  rw [foldCalls_append, foldCalls_append]
  rw [foldCalls_no_translate (List.map (fun p => (p.2.name, p.2.args)) post)
    (fun p hp => by
      obtain ⟨q, hq, hpq⟩ := List.mem_map.mp hp
      rw [← hpq]
      exact hpost q hq)]
  rw [foldCalls_translate_step _ a1 args2 hnc]

theorem c8_witness :
    parseTransformToXY "translate(10px, -5px) scale(2)" = (some (mkRat 10 1), some (mkRat (-5) 1)) ∧
    parseTransformToXY "translate(7px)" = (some (mkRat 7 1), some 0) := by
  have h := c8_last_translate
    [([], ⟨"translate".data, "10px, -5px".data⟩), ([' '], ⟨"scale".data, "2".data⟩)]
    [] [([' '], ⟨"scale".data, "2".data⟩)] [] "10px".data [" -5px".data]
    ⟨"translate".data, "10px, -5px".data⟩
    rfl
    (by
      intro p hp
      fin_cases hp <;> exact ⟨by decide, by decide, by decide, by decide, by decide⟩)
    rfl rfl (by decide) (by decide) rfl rfl
  exact ⟨h.1, h.2.2⟩
